import Mathlib

/-
  Verification of the wordle solver library (crates/wordle-lib).

  Words are 5-letter sequences of byte values; we model a word as a
  `List Nat` of length 5 whose entries are ASCII codes (97..122 for
  lowercase letters).  Machine integers of the source (`u8`, `u64`,
  `usize`, `u16`, `u32`) are modelled as `Nat`; every arithmetic
  operation performed by the source on those types stays far below the
  wrap-around bound on the stated domains (the availability accumulator
  is at most `5 * 2 ^ 50 < 2 ^ 64`, feedback codes are below `243`,
  solution sizes and cost totals stay below `2 ^ 16` for the word lists
  the program ships with), so no explicit `% 2 ^ w` is inserted.
  Floating point: `Guess.entropy` is `sum over buckets of log2 (len)`;
  we model its comparison order by the (exact, real-valued) equivalent
  product of bucket lengths, since `log2` is strictly monotone and
  `sum log2 = log2 prod`; the test `entropy < 1.0` is modelled by
  `prod < 2`, which agrees with the IEEE computation because `log2` of
  a positive integer is `0` exactly for `1` and is computed `>= 1.0`
  for every integer `>= 2`, and IEEE addition of non-negative values is
  monotone.
-/

abbrev Word := List Nat

/-- A well-formed word: length 5, all lowercase ASCII letters. -/
def wordWF (w : Word) : Prop := w.length = 5 ∧ ∀ c ∈ w, 97 ≤ c ∧ c ≤ 122

instance (w : Word) : Decidable (wordWF w) := by unfold wordWF; infer_instance

/-- `WordMatch::CORRECT` : all five base-3 digits equal 2. -/
def CORRECT : Nat := 242

/-- `WordMatch::ABSENT`. -/
def ABSENT : Nat := 0

/-- Pass 1 body of `WordMatch::from` (word_match.rs lines 23-31): at
position `i`, a correct letter adds `2 * 3 ^ i` to the packed match
value (`set(i, Correct)`), otherwise the answer letter is added to the
availability accumulator, two bits per letter (`1 << (2 * (a - 97))`),
with no saturation. -/
def p1step (g a : Word) (st : Nat × Nat) (i : Nat) : Nat × Nat :=
  let gi := g.getD i 0
  let ai := a.getD i 0
  if gi = ai then (st.1 + 2 * 3 ^ i, st.2) else (st.1, st.2 + (1 <<< (2 * (ai - 97))))

/-- The `for i in 0..5` loop of pass 1. -/
def p1go (g a : Word) : List Nat → Nat × Nat → Nat × Nat
  | [], st => st
  | i :: is, st => p1go g a is (p1step g a st i)

def pass1 (g a : Word) : Nat × Nat := p1go g a (List.range 5) (0, 0)

/-- Pass 2 body (word_match.rs lines 32-40): positions still `Absent`
(base-3 digit 0) are marked `Present` (`+ 3 ^ i`) when the guess letter
still has availability, decrementing the 2-bit field. -/
def p2step (g : Word) (st : Nat × Nat) (i : Nat) : Nat × Nat :=
  if st.1 / 3 ^ i % 3 = 0 then
    let gi := g.getD i 0
    if (st.2 >>> (2 * (gi - 97))) &&& 3 ≠ 0 then
      (st.1 + 3 ^ i, st.2 - (1 <<< (2 * (gi - 97))))
    else st
  else st

def p2go (g : Word) : List Nat → Nat × Nat → Nat × Nat
  | [], st => st
  | i :: is, st => p2go g is (p2step g st i)

/-- `WordMatch::from(guess, answer)` (word_match.rs lines 20-42). -/
def wmFrom (g a : Word) : Nat := (p2go g (List.range 5) (pass1 g a)).1

/-- Modelled from the spec (section 4.1): the reference feedback
computation in which pass 1 adds each non-correct answer letter to an
availability multiset "capped at 2 occurrences per letter"
(a saturating add into the 2-bit field); pass 2 is identical to the
source's.  This is the algorithm the spec describes; `wmFrom` is what
the source implements (no cap). -/
def p1stepCapped (g a : Word) (st : Nat × Nat) (i : Nat) : Nat × Nat :=
  let gi := g.getD i 0
  let ai := a.getD i 0
  if gi = ai then (st.1 + 2 * 3 ^ i, st.2)
  else if (st.2 >>> (2 * (ai - 97))) &&& 3 < 2 then
    (st.1, st.2 + (1 <<< (2 * (ai - 97))))
  else st

def p1goCapped (g a : Word) : List Nat → Nat × Nat → Nat × Nat
  | [], st => st
  | i :: is, st => p1goCapped g a is (p1stepCapped g a st i)

def wmFromCapped (g a : Word) : Nat :=
  (p2go g (List.range 5) (p1goCapped g a (List.range 5) (0, 0))).1

-- Sanity fixtures from the spec, section 8. "sanes"/"boats" = apaac,
-- "tonka"/"aunty" = pacap, "lares"/"coach" = apaaa (a=0, p=1, c=2 with
-- weights 1,3,9,27,81).
example : wmFrom [115, 97, 110, 101, 115] [98, 111, 97, 116, 115] = 0 + 3 + 0 + 0 + 2 * 81 := by
  decide
example : wmFrom [116, 111, 110, 107, 97] [97, 117, 110, 116, 121] = 1 + 0 + 2 * 9 + 0 + 81 := by
  decide
example : wmFrom [108, 97, 114, 101, 115] [99, 111, 97, 99, 104] = 0 + 3 + 0 + 0 + 0 := by
  decide
theorem wmFrom_self (g : Word) : wmFrom g g = CORRECT := by
  have hr : List.range 5 = [0, 1, 2, 3, 4] := rfl
  have h : pass1 g g = (242, 0) := by
    simp [pass1, hr, p1go, p1step]
  rw [wmFrom, h, hr]
  norm_num [p2go, p2step, CORRECT]

/-! ### Positional base-`b` encodings

The packed `matches` byte is a base-3 numeral over 5 digits; the packed
availability accumulator is a base-4 numeral over 26 two-bit fields.
`encB b L` encodes a little-endian digit list `L` in base `b`. -/

def encB (b : Nat) : List Nat → Nat
  | [] => 0
  | c :: r => c + b * encB b r

theorem encB_div_pow_mod (b : Nat) :
    ∀ (i : Nat) (L : List Nat), (∀ x ∈ L, x < b) → encB b L / b ^ i % b = L.getD i 0 := by
  intro i
  induction i with
  | zero =>
    intro L hL
    cases L with
    | nil => simp [encB]
    | cons c r =>
      have hc : c < b := hL c (by simp)
      simp [encB, Nat.add_mul_mod_self_left, Nat.mod_eq_of_lt hc]
  | succ i ih =>
    intro L hL
    cases L with
    | nil => simp [encB]
    | cons c r =>
      have hc : c < b := hL c (by simp)
      have hb : 0 < b := Nat.pos_of_ne_zero (by omega)
      have h1 : (c + b * encB b r) / b = encB b r := by
        rw [Nat.add_mul_div_left _ _ hb, Nat.div_eq_of_lt hc, Nat.zero_add]
      have h2 : (c + b * encB b r) / b ^ (i + 1) = encB b r / b ^ i := by
        rw [pow_succ, mul_comm (b ^ i) b, ← Nat.div_div_eq_div_mul, h1]
      simpa [encB, h2] using ih r (fun x hx => hL x (by simp [hx]))

theorem encB_set_add (b : Nat) :
    ∀ (i : Nat) (L : List Nat) (δ : Nat), i < L.length →
      encB b (L.set i (L.getD i 0 + δ)) = encB b L + δ * b ^ i := by
  intro i
  induction i with
  | zero =>
    intro L δ hi
    cases L with
    | nil => simp at hi
    | cons c r => simp [encB]; ring
  | succ i ih =>
    intro L δ hi
    cases L with
    | nil => simp at hi
    | cons c r =>
      have h := ih r δ (by simpa using hi)
      show encB b (c :: r.set i (r.getD i 0 + δ)) = encB b (c :: r) + δ * b ^ (i + 1)
      simp only [encB]
      rw [h]
      ring

theorem set_getD_self : ∀ (i : Nat) (L : List Nat), i < L.length → L.set i (L.getD i 0) = L := by
  intro i
  induction i with
  | zero =>
    intro L hi
    cases L with
    | nil => simp at hi
    | cons c r => simp
  | succ i ih =>
    intro L hi
    cases L with
    | nil => simp at hi
    | cons c r => simpa using ih r (by simpa using hi)

theorem getD_set_self : ∀ (i : Nat) (L : List Nat) (v : Nat), i < L.length →
    (L.set i v).getD i 0 = v := by
  intro i
  induction i with
  | zero =>
    intro L v hi
    cases L with
    | nil => simp at hi
    | cons c r => simp
  | succ i ih =>
    intro L v hi
    cases L with
    | nil => simp at hi
    | cons c r => simpa using ih r v (by simpa using hi)

theorem getD_set_ne : ∀ (i j : Nat) (L : List Nat) (v : Nat), i ≠ j →
    (L.set i v).getD j 0 = L.getD j 0 := by
  intro i
  induction i with
  | zero =>
    intro j L v hij
    cases L with
    | nil => simp
    | cons c r => cases j with
      | zero => omega
      | succ j => simp
  | succ i ih =>
    intro j L v hij
    cases L with
    | nil => simp
    | cons c r => cases j with
      | zero => simp
      | succ j => simpa using ih j r v (by omega)

/-- Subtracting one unit at digit `i` (the pass-2 availability decrement). -/
theorem encB_set_sub (b : Nat) (i : Nat) (L : List Nat) (hi : i < L.length)
    (hpos : 1 ≤ L.getD i 0) :
    encB b (L.set i (L.getD i 0 - 1)) = encB b L - 1 * b ^ i := by
  have h := encB_set_add b i (L.set i (L.getD i 0 - 1)) 1 (by simpa using hi)
  rw [getD_set_self i L _ hi, List.set_set] at h
  have h2 : L.getD i 0 - 1 + 1 = L.getD i 0 := by omega
  rw [h2, set_getD_self i L hi] at h
  omega

/-! ### Abstract (digit-list) view of the two passes

The packed state `(matches, available)` is viewed as a pair of digit
lists: 5 base-3 digits for `matches`, 26 base-4 fields for
`available`.  The abstract passes perform the same branch structure on
the lists; the correspondence theorems below show the packed pass is
the `encB` image of the abstract one — for pass 1 unconditionally, for
pass 2 provided all fields are small enough to decode (which is where
the absence of the saturating cap matters). -/

def bump (L : List Nat) (i δ : Nat) : List Nat := L.set i (L.getD i 0 + δ)

def dec1 (L : List Nat) (i : Nat) : List Nat := L.set i (L.getD i 0 - 1)

def p1stepL (g a : Word) (st : List Nat × List Nat) (i : Nat) : List Nat × List Nat :=
  if g.getD i 0 = a.getD i 0 then (bump st.1 i 2, st.2)
  else (st.1, bump st.2 (a.getD i 0 - 97) 1)

def p1goL (g a : Word) : List Nat → List Nat × List Nat → List Nat × List Nat
  | [], st => st
  | i :: is, st => p1goL g a is (p1stepL g a st i)

def p1stepLC (g a : Word) (st : List Nat × List Nat) (i : Nat) : List Nat × List Nat :=
  if g.getD i 0 = a.getD i 0 then (bump st.1 i 2, st.2)
  else if st.2.getD (a.getD i 0 - 97) 0 < 2 then (st.1, bump st.2 (a.getD i 0 - 97) 1)
  else st

def p1goLC (g a : Word) : List Nat → List Nat × List Nat → List Nat × List Nat
  | [], st => st
  | i :: is, st => p1goLC g a is (p1stepLC g a st i)

def p2stepL (g : Word) (st : List Nat × List Nat) (i : Nat) : List Nat × List Nat :=
  if st.1.getD i 0 = 0 then
    if st.2.getD (g.getD i 0 - 97) 0 ≠ 0 then (bump st.1 i 1, dec1 st.2 (g.getD i 0 - 97))
    else st
  else st

def p2goL (g : Word) : List Nat → List Nat × List Nat → List Nat × List Nat
  | [], st => st
  | i :: is, st => p2goL g is (p2stepL g st i)

theorem shift_and_three (x ℓ : Nat) : (x >>> (2 * ℓ)) &&& 3 = x / 4 ^ ℓ % 4 := by
  have h3 : (3 : Nat) = 2 ^ 2 - 1 := rfl
  rw [Nat.shiftRight_eq_div_pow, h3, Nat.and_pow_two_sub_one_eq_mod]
  norm_num [pow_mul]

theorem one_shiftLeft_two_mul (ℓ : Nat) : (1 : Nat) <<< (2 * ℓ) = 4 ^ ℓ := by
  rw [Nat.shiftLeft_eq, one_mul, pow_mul]
  norm_num

theorem p1_corr (g a : Word) : ∀ (is : List Nat) (D C : List Nat),
    (∀ i ∈ is, i < D.length) →
    (∀ i ∈ is, g.getD i 0 ≠ a.getD i 0 → a.getD i 0 - 97 < C.length) →
    p1go g a is (encB 3 D, encB 4 C) =
      (encB 3 (p1goL g a is (D, C)).1, encB 4 (p1goL g a is (D, C)).2) := by
  intro is
  induction is with
  | nil => intro D C _ _; rfl
  | cons i is ih =>
    intro D C hD hC
    show p1go g a is (p1step g a (encB 3 D, encB 4 C) i) = _
    by_cases hg : g.getD i 0 = a.getD i 0
    · have hstep : p1step g a (encB 3 D, encB 4 C) i = (encB 3 (bump D i 2), encB 4 C) := by
        simp only [p1step]
        rw [if_pos hg, bump, encB_set_add 3 i D 2 (hD i (by simp))]
      have hL : p1goL g a (i :: is) (D, C) = p1goL g a is (bump D i 2, C) := by
        show p1goL g a is (p1stepL g a (D, C) i) = _
        simp only [p1stepL]
        rw [if_pos hg]
      rw [hstep, ih (bump D i 2) C (fun j hj => by simpa [bump] using hD j (by simp [hj]))
          (fun j hj hgj => hC j (by simp [hj]) hgj), hL]
    · have hℓ : a.getD i 0 - 97 < C.length := hC i (by simp) hg
      have hstep : p1step g a (encB 3 D, encB 4 C) i =
          (encB 3 D, encB 4 (bump C (a.getD i 0 - 97) 1)) := by
        simp only [p1step]
        rw [if_neg hg, bump, encB_set_add 4 _ C 1 hℓ, one_mul, one_shiftLeft_two_mul]
      have hL : p1goL g a (i :: is) (D, C) = p1goL g a is (D, bump C (a.getD i 0 - 97) 1) := by
        show p1goL g a is (p1stepL g a (D, C) i) = _
        simp only [p1stepL]
        rw [if_neg hg]
      rw [hstep, ih D (bump C (a.getD i 0 - 97) 1) (fun j hj => hD j (by simp [hj]))
          (fun j hj hgj => by simpa [bump] using hC j (by simp [hj]) hgj), hL]

theorem mem_set_bound {C : List Nat} {b ℓ v : Nat} (hC : ∀ x ∈ C, x < b) (hv : v < b) :
    ∀ x ∈ C.set ℓ v, x < b := by
  intro x hx
  rcases List.mem_or_eq_of_mem_set hx with h | h
  · exact hC x h
  · omega

theorem p1C_corr (g a : Word) : ∀ (is : List Nat) (D C : List Nat),
    (∀ i ∈ is, i < D.length) →
    (∀ i ∈ is, g.getD i 0 ≠ a.getD i 0 → a.getD i 0 - 97 < C.length) →
    (∀ x ∈ C, x < 4) →
    p1goCapped g a is (encB 3 D, encB 4 C) =
      (encB 3 (p1goLC g a is (D, C)).1, encB 4 (p1goLC g a is (D, C)).2) := by
  intro is
  induction is with
  | nil => intro D C _ _ _; rfl
  | cons i is ih =>
    intro D C hD hC hC4
    show p1goCapped g a is (p1stepCapped g a (encB 3 D, encB 4 C) i) = _
    by_cases hg : g.getD i 0 = a.getD i 0
    · have hstep : p1stepCapped g a (encB 3 D, encB 4 C) i = (encB 3 (bump D i 2), encB 4 C) := by
        simp only [p1stepCapped]
        rw [if_pos hg, bump, encB_set_add 3 i D 2 (hD i (by simp))]
      have hL : p1goLC g a (i :: is) (D, C) = p1goLC g a is (bump D i 2, C) := by
        show p1goLC g a is (p1stepLC g a (D, C) i) = _
        simp only [p1stepLC]
        rw [if_pos hg]
      rw [hstep, ih (bump D i 2) C (fun j hj => by simpa [bump] using hD j (by simp [hj]))
          (fun j hj hgj => hC j (by simp [hj]) hgj) hC4, hL]
    · have hℓ : a.getD i 0 - 97 < C.length := hC i (by simp) hg
      have hfld : (encB 4 C >>> (2 * (a.getD i 0 - 97))) &&& 3 = C.getD (a.getD i 0 - 97) 0 := by
        rw [shift_and_three, encB_div_pow_mod 4 _ C hC4]
      by_cases hlt : C.getD (a.getD i 0 - 97) 0 < 2
      · have hstep : p1stepCapped g a (encB 3 D, encB 4 C) i =
            (encB 3 D, encB 4 (bump C (a.getD i 0 - 97) 1)) := by
          simp only [p1stepCapped]
          rw [if_neg hg, hfld, if_pos hlt, bump,
            encB_set_add 4 _ C 1 hℓ, one_mul, one_shiftLeft_two_mul]
        have hL : p1goLC g a (i :: is) (D, C) =
            p1goLC g a is (D, bump C (a.getD i 0 - 97) 1) := by
          show p1goLC g a is (p1stepLC g a (D, C) i) = _
          simp only [p1stepLC]
          rw [if_neg hg, if_pos hlt]
        have hbnd : ∀ x ∈ bump C (a.getD i 0 - 97) 1, x < 4 :=
          mem_set_bound hC4 (by omega)
        rw [hstep, ih D (bump C (a.getD i 0 - 97) 1) (fun j hj => hD j (by simp [hj]))
            (fun j hj hgj => by simpa [bump] using hC j (by simp [hj]) hgj) hbnd, hL]
      · have hstep : p1stepCapped g a (encB 3 D, encB 4 C) i = (encB 3 D, encB 4 C) := by
          simp only [p1stepCapped]
          rw [if_neg hg, hfld, if_neg hlt]
        have hL : p1goLC g a (i :: is) (D, C) = p1goLC g a is (D, C) := by
          show p1goLC g a is (p1stepLC g a (D, C) i) = _
          simp only [p1stepLC]
          rw [if_neg hg, if_neg hlt]
        rw [hstep, ih D C (fun j hj => hD j (by simp [hj]))
            (fun j hj hgj => hC j (by simp [hj]) hgj) hC4, hL]

theorem p2_corr (g : Word) : ∀ (is : List Nat) (D C : List Nat),
    (∀ i ∈ is, i < D.length) →
    (∀ i ∈ is, g.getD i 0 - 97 < C.length) →
    (∀ x ∈ D, x < 3) → (∀ x ∈ C, x < 4) →
    p2go g is (encB 3 D, encB 4 C) =
      (encB 3 (p2goL g is (D, C)).1, encB 4 (p2goL g is (D, C)).2) := by
  intro is
  induction is with
  | nil => intro D C _ _ _ _; rfl
  | cons i is ih =>
    intro D C hD hC hD3 hC4
    show p2go g is (p2step g (encB 3 D, encB 4 C) i) = _
    have hdig : encB 3 D / 3 ^ i % 3 = D.getD i 0 := encB_div_pow_mod 3 i D hD3
    by_cases hz : D.getD i 0 = 0
    · have hfld : (encB 4 C >>> (2 * (g.getD i 0 - 97))) &&& 3 = C.getD (g.getD i 0 - 97) 0 := by
        rw [shift_and_three, encB_div_pow_mod 4 _ C hC4]
      by_cases hav : C.getD (g.getD i 0 - 97) 0 ≠ 0
      · have hℓ : g.getD i 0 - 97 < C.length := hC i (by simp)
        have hsub : encB 4 (dec1 C (g.getD i 0 - 97)) =
            encB 4 C - 1 <<< (2 * (g.getD i 0 - 97)) := by
          show encB 4 (C.set (g.getD i 0 - 97) (C.getD (g.getD i 0 - 97) 0 - 1)) = _
          rw [encB_set_sub 4 _ C hℓ (by omega), one_mul, one_shiftLeft_two_mul]
        have hstep : p2step g (encB 3 D, encB 4 C) i =
            (encB 3 (bump D i 1), encB 4 (dec1 C (g.getD i 0 - 97))) := by
          simp only [p2step]
          rw [hdig, if_pos hz, hfld, if_pos hav, bump,
            encB_set_add 3 i D 1 (hD i (by simp)), one_mul, hsub]
        have hL : p2goL g (i :: is) (D, C) =
            p2goL g is (bump D i 1, dec1 C (g.getD i 0 - 97)) := by
          show p2goL g is (p2stepL g (D, C) i) = _
          simp only [p2stepL]
          rw [if_pos hz, if_pos hav]
        have hD3n : ∀ x ∈ bump D i 1, x < 3 := mem_set_bound hD3 (by omega)
        have hC4n : ∀ x ∈ dec1 C (g.getD i 0 - 97), x < 4 := by
          apply mem_set_bound hC4
          have := encB_div_pow_mod 4 (g.getD i 0 - 97) C hC4
          have hval : C.getD (g.getD i 0 - 97) 0 < 4 := by
            rw [← this]
            exact Nat.mod_lt _ (by norm_num)
          omega
        rw [hstep, ih (bump D i 1) (dec1 C (g.getD i 0 - 97))
            (fun j hj => by simpa [bump] using hD j (by simp [hj]))
            (fun j hj => by simpa [dec1] using hC j (by simp [hj])) hD3n hC4n, hL]
      · have hstep : p2step g (encB 3 D, encB 4 C) i = (encB 3 D, encB 4 C) := by
          simp only [p2step]
          rw [hdig, if_pos hz, hfld, if_neg hav]
        have hL : p2goL g (i :: is) (D, C) = p2goL g is (D, C) := by
          show p2goL g is (p2stepL g (D, C) i) = _
          simp only [p2stepL]
          rw [if_pos hz, if_neg hav]
        rw [hstep, ih D C (fun j hj => hD j (by simp [hj]))
            (fun j hj => hC j (by simp [hj])) hD3 hC4, hL]
    · have hstep : p2step g (encB 3 D, encB 4 C) i = (encB 3 D, encB 4 C) := by
        simp only [p2step]
        rw [hdig, if_neg hz]
      have hL : p2goL g (i :: is) (D, C) = p2goL g is (D, C) := by
        show p2goL g is (p2stepL g (D, C) i) = _
        simp only [p2stepL]
        rw [if_neg hz]
      rw [hstep, ih D C (fun j hj => hD j (by simp [hj]))
          (fun j hj => hC j (by simp [hj])) hD3 hC4, hL]

/-! ### Characterisations of the abstract passes -/

theorem p1goL_len (g a : Word) : ∀ (is : List Nat) (st : List Nat × List Nat),
    ((p1goL g a is st).1.length = st.1.length ∧ (p1goL g a is st).2.length = st.2.length) := by
  intro is
  induction is with
  | nil => intro st; exact ⟨rfl, rfl⟩
  | cons i is ih =>
    intro st
    have h := ih (p1stepL g a st i)
    refine ⟨h.1.trans ?_, h.2.trans ?_⟩ <;>
      · simp only [p1stepL, bump]
        split <;> simp

theorem p1goL_digits (g a : Word) : ∀ (is : List Nat) (D C : List Nat) (j : Nat),
    j < D.length → is.Nodup →
    ((p1goL g a is (D, C)).1).getD j 0 =
      D.getD j 0 + (if j ∈ is ∧ g.getD j 0 = a.getD j 0 then 2 else 0) := by
  intro is
  induction is with
  | nil => intro D C j _ _; simp [p1goL]
  | cons i is ih =>
    intro D C j hj hnd
    rcases List.nodup_cons.mp hnd with ⟨hni, hnd'⟩
    show ((p1goL g a is (p1stepL g a (D, C) i)).1).getD j 0 = _
    have hmem : ∀ (P : Prop), j ≠ i → ((j ∈ i :: is ∧ P) ↔ (j ∈ is ∧ P)) := by
      intro P hij
      constructor
      · rintro ⟨hm, hc⟩
        rcases List.mem_cons.mp hm with h | h
        · exact absurd h hij
        · exact ⟨h, hc⟩
      · rintro ⟨hm, hc⟩; exact ⟨List.mem_cons_of_mem _ hm, hc⟩
    by_cases hg : g.getD i 0 = a.getD i 0
    · have hstep : p1stepL g a (D, C) i = (bump D i 2, C) := by
        simp only [p1stepL]; rw [if_pos hg]
      rw [hstep]
      by_cases hij : j = i
      · subst hij
        rw [ih (bump D j 2) C j (by simpa [bump] using hj) hnd']
        rw [if_neg (fun h => hni h.1), if_pos ⟨List.mem_cons_self j is, hg⟩,
          bump, getD_set_self j D _ hj]
      · rw [ih (bump D i 2) C j (by simpa [bump] using hj) hnd']
        have hne : (bump D i 2).getD j 0 = D.getD j 0 := getD_set_ne i j D _ (fun h => hij h.symm)
        rw [hne]
        rw [if_congr (hmem _ hij) rfl rfl]
    · have hstep : p1stepL g a (D, C) i = (D, bump C (a.getD i 0 - 97) 1) := by
        simp only [p1stepL]; rw [if_neg hg]
      rw [hstep, ih D _ j hj hnd']
      by_cases hij : j = i
      · subst hij
        rw [if_neg (fun h => hni h.1), if_neg (fun h => hg h.2)]
      · rw [if_congr (hmem _ hij) rfl rfl]

theorem p1goL_counts (g a : Word) : ∀ (is : List Nat) (D C : List Nat) (ℓ : Nat),
    (∀ i ∈ is, g.getD i 0 ≠ a.getD i 0 → a.getD i 0 - 97 < C.length) →
    ((p1goL g a is (D, C)).2).getD ℓ 0 =
      C.getD ℓ 0 +
        List.countP (fun i => decide (g.getD i 0 ≠ a.getD i 0 ∧ a.getD i 0 - 97 = ℓ)) is := by
  intro is
  induction is with
  | nil => intro D C ℓ _; simp [p1goL]
  | cons i is ih =>
    intro D C ℓ hC
    show ((p1goL g a is (p1stepL g a (D, C) i)).2).getD ℓ 0 = _
    rw [List.countP_cons]
    by_cases hg : g.getD i 0 = a.getD i 0
    · have hstep : p1stepL g a (D, C) i = (bump D i 2, C) := by
        simp only [p1stepL]; rw [if_pos hg]
      rw [hstep, ih (bump D i 2) C ℓ (fun j hj h => hC j (by simp [hj]) h)]
      rw [show (decide (g.getD i 0 ≠ a.getD i 0 ∧ a.getD i 0 - 97 = ℓ)) = false from
        decide_eq_false (fun h => h.1 hg)]
      norm_num
    · have hstep : p1stepL g a (D, C) i = (D, bump C (a.getD i 0 - 97) 1) := by
        simp only [p1stepL]; rw [if_neg hg]
      have hl : a.getD i 0 - 97 < C.length := hC i (by simp) hg
      rw [hstep, ih D (bump C (a.getD i 0 - 97) 1) ℓ
        (fun j hj h => by simpa [bump] using hC j (by simp [hj]) h)]
      by_cases hℓ : a.getD i 0 - 97 = ℓ
      · rw [show (decide (g.getD i 0 ≠ a.getD i 0 ∧ a.getD i 0 - 97 = ℓ)) = true from
          decide_eq_true ⟨hg, hℓ⟩]
        rw [bump, hℓ, getD_set_self _ C _ (hℓ ▸ hl)]
        norm_num
        omega
      · rw [show (decide (g.getD i 0 ≠ a.getD i 0 ∧ a.getD i 0 - 97 = ℓ)) = false from
          decide_eq_false (fun h => hℓ h.2)]
        rw [bump, getD_set_ne _ _ C _ hℓ]
        norm_num

theorem p1goLC_digits (g a : Word) : ∀ (is : List Nat) (D C C' : List Nat),
    (p1goLC g a is (D, C')).1 = (p1goL g a is (D, C)).1 := by
  intro is
  induction is with
  | nil => intro D C C'; rfl
  | cons i is ih =>
    intro D C C'
    show (p1goLC g a is (p1stepLC g a (D, C') i)).1 = (p1goL g a is (p1stepL g a (D, C) i)).1
    by_cases hg : g.getD i 0 = a.getD i 0
    · have h1 : p1stepLC g a (D, C') i = (bump D i 2, C') := by
        simp only [p1stepLC]; rw [if_pos hg]
      have h2 : p1stepL g a (D, C) i = (bump D i 2, C) := by
        simp only [p1stepL]; rw [if_pos hg]
      rw [h1, h2]; exact ih _ _ _
    · have h2 : p1stepL g a (D, C) i = (D, bump C (a.getD i 0 - 97) 1) := by
        simp only [p1stepL]; rw [if_neg hg]
      by_cases hlt : C'.getD (a.getD i 0 - 97) 0 < 2
      · have h1 : p1stepLC g a (D, C') i = (D, bump C' (a.getD i 0 - 97) 1) := by
          simp only [p1stepLC]; rw [if_neg hg, if_pos hlt]
        rw [h1, h2]; exact ih _ _ _
      · have h1 : p1stepLC g a (D, C') i = (D, C') := by
          simp only [p1stepLC]; rw [if_neg hg, if_neg hlt]
        rw [h1, h2]; exact ih _ _ _

theorem p1goLC_counts (g a : Word) : ∀ (is : List Nat) (D C C' : List Nat),
    C'.length = C.length →
    (∀ ℓ, C'.getD ℓ 0 = min (C.getD ℓ 0) 2) →
    ∀ ℓ, ((p1goLC g a is (D, C')).2).getD ℓ 0 = min (((p1goL g a is (D, C)).2).getD ℓ 0) 2 := by
  intro is
  induction is with
  | nil => intro D C C' _ hinv ℓ; exact hinv ℓ
  | cons i is ih =>
    intro D C C' hlen hinv
    show ∀ ℓ, ((p1goLC g a is (p1stepLC g a (D, C') i)).2).getD ℓ 0 =
      min (((p1goL g a is (p1stepL g a (D, C) i)).2).getD ℓ 0) 2
    by_cases hg : g.getD i 0 = a.getD i 0
    · have h1 : p1stepLC g a (D, C') i = (bump D i 2, C') := by
        simp only [p1stepLC]; rw [if_pos hg]
      have h2 : p1stepL g a (D, C) i = (bump D i 2, C) := by
        simp only [p1stepL]; rw [if_pos hg]
      rw [h1, h2]; exact ih _ _ _ hlen hinv
    · have h2 : p1stepL g a (D, C) i = (D, bump C (a.getD i 0 - 97) 1) := by
        simp only [p1stepL]; rw [if_neg hg]
      by_cases hin : a.getD i 0 - 97 < C.length
      · by_cases hlt : C.getD (a.getD i 0 - 97) 0 < 2
        · have hlt' : C'.getD (a.getD i 0 - 97) 0 < 2 := by rw [hinv]; omega
          have h1 : p1stepLC g a (D, C') i = (D, bump C' (a.getD i 0 - 97) 1) := by
            simp only [p1stepLC]; rw [if_neg hg, if_pos hlt']
          rw [h1, h2]
          refine ih _ _ _ (by simp [bump, hlen]) ?_
          intro ℓ
          by_cases hℓ : a.getD i 0 - 97 = ℓ
          · subst hℓ
            rw [bump, bump, getD_set_self _ C _ hin, getD_set_self _ C' _ (by omega)]
            rw [hinv]
            omega
          · rw [bump, bump, getD_set_ne _ _ C _ hℓ, getD_set_ne _ _ C' _ hℓ]
            exact hinv ℓ
        · have hlt' : ¬ C'.getD (a.getD i 0 - 97) 0 < 2 := by rw [hinv]; omega
          have h1 : p1stepLC g a (D, C') i = (D, C') := by
            simp only [p1stepLC]; rw [if_neg hg, if_neg hlt']
          rw [h1, h2]
          refine ih _ _ _ (by simp [bump, hlen]) ?_
          intro ℓ
          by_cases hℓ : a.getD i 0 - 97 = ℓ
          · subst hℓ
            rw [bump, getD_set_self _ C _ hin, hinv]
            omega
          · rw [bump, getD_set_ne _ _ C _ hℓ]
            exact hinv ℓ
      · have hC0 : C.getD (a.getD i 0 - 97) 0 = 0 :=
          List.getD_eq_default _ _ (by omega)
        have hlt' : C'.getD (a.getD i 0 - 97) 0 < 2 := by rw [hinv, hC0]; omega
        have h1 : p1stepLC g a (D, C') i = (D, bump C' (a.getD i 0 - 97) 1) := by
          simp only [p1stepLC]; rw [if_neg hg, if_pos hlt']
        have hb1 : bump C' (a.getD i 0 - 97) 1 = C' := by
          rw [bump, List.set_eq_of_length_le (by omega)]
        have hb2 : bump C (a.getD i 0 - 97) 1 = C := by
          rw [bump, List.set_eq_of_length_le (by omega)]
        rw [h1, h2, hb1, hb2]
        exact ih _ _ _ hlen hinv

/-- Number of still-unanswered pass-2 queries for letter index `ℓ`
among positions `is` given the current digit list `D`. -/
def qcount (g : Word) (D : List Nat) (is : List Nat) (ℓ : Nat) : Nat :=
  List.countP (fun i => decide (D.getD i 0 = 0 ∧ g.getD i 0 - 97 = ℓ)) is

theorem p2goL_equiv (g : Word) : ∀ (is : List Nat) (D C C' : List Nat), is.Nodup →
    (∀ ℓ, min (C.getD ℓ 0) (qcount g D is ℓ) = min (C'.getD ℓ 0) (qcount g D is ℓ)) →
    (p2goL g is (D, C)).1 = (p2goL g is (D, C')).1 := by
  intro is
  induction is with
  | nil => intro D C C' _ _; rfl
  | cons i is ih =>
    intro D C C' hnd hmin
    rcases List.nodup_cons.mp hnd with ⟨hni, hnd'⟩
    show (p2goL g is (p2stepL g (D, C) i)).1 = (p2goL g is (p2stepL g (D, C') i)).1
    by_cases hz : D.getD i 0 = 0
    · have hqc : ∀ ℓ, qcount g D (i :: is) ℓ =
          qcount g D is ℓ + (if g.getD i 0 - 97 = ℓ then 1 else 0) := by
        intro ℓ
        simp only [qcount, List.countP_cons]
        by_cases hℓ : g.getD i 0 - 97 = ℓ
        · rw [show (decide (D.getD i 0 = 0 ∧ g.getD i 0 - 97 = ℓ)) = true from
            decide_eq_true ⟨hz, hℓ⟩, if_pos hℓ]
          norm_num
        · rw [show (decide (D.getD i 0 = 0 ∧ g.getD i 0 - 97 = ℓ)) = false from
            decide_eq_false (fun h => hℓ h.2), if_neg hℓ]
          norm_num
      by_cases hc : C.getD (g.getD i 0 - 97) 0 = 0
      · have hc' : C'.getD (g.getD i 0 - 97) 0 = 0 := by
          have h := hmin (g.getD i 0 - 97)
          rw [hqc, if_pos rfl] at h
          omega
        have h1 : p2stepL g (D, C) i = (D, C) := by
          simp only [p2stepL]; rw [if_pos hz, if_neg (fun h => h hc)]
        have h2 : p2stepL g (D, C') i = (D, C') := by
          simp only [p2stepL]; rw [if_pos hz, if_neg (fun h => h hc')]
        rw [h1, h2]
        refine ih D C C' hnd' ?_
        intro ℓ
        have h := hmin ℓ
        rw [hqc ℓ] at h
        by_cases hℓ : g.getD i 0 - 97 = ℓ
        · rw [if_pos hℓ] at h; omega
        · rw [if_neg hℓ] at h; omega
      · have hc' : C'.getD (g.getD i 0 - 97) 0 ≠ 0 := by
          have h := hmin (g.getD i 0 - 97)
          rw [hqc, if_pos rfl] at h
          omega
        have hinC : g.getD i 0 - 97 < C.length := by
          by_contra hout
          exact hc (List.getD_eq_default _ _ (by omega))
        have hinC' : g.getD i 0 - 97 < C'.length := by
          by_contra hout
          exact hc' (List.getD_eq_default _ _ (by omega))
        have h1 : p2stepL g (D, C) i = (bump D i 1, dec1 C (g.getD i 0 - 97)) := by
          simp only [p2stepL]; rw [if_pos hz, if_pos hc]
        have h2 : p2stepL g (D, C') i = (bump D i 1, dec1 C' (g.getD i 0 - 97)) := by
          simp only [p2stepL]; rw [if_pos hz, if_pos hc']
        rw [h1, h2]
        refine ih (bump D i 1) _ _ hnd' ?_
        intro ℓ
        have hq : qcount g (bump D i 1) is ℓ = qcount g D is ℓ := by
          refine List.countP_congr ?_
          intro j hj
          have hji : i ≠ j := fun h => hni (h ▸ hj)
          rw [bump, getD_set_ne _ _ D _ hji]
        rw [hq]
        have h := hmin ℓ
        rw [hqc ℓ] at h
        by_cases hℓ : g.getD i 0 - 97 = ℓ
        · subst hℓ
          rw [if_pos rfl] at h
          rw [dec1, dec1, getD_set_self _ C _ hinC, getD_set_self _ C' _ hinC']
          omega
        · rw [if_neg hℓ] at h
          rw [dec1, dec1, getD_set_ne _ _ C _ hℓ, getD_set_ne _ _ C' _ hℓ]
          omega
    · have h1 : p2stepL g (D, C) i = (D, C) := by
        simp only [p2stepL]; rw [if_neg hz]
      have h2 : p2stepL g (D, C') i = (D, C') := by
        simp only [p2stepL]; rw [if_neg hz]
      rw [h1, h2]
      refine ih D C C' hnd' ?_
      intro ℓ
      have h := hmin ℓ
      have hqc : qcount g D (i :: is) ℓ = qcount g D is ℓ := by
        simp only [qcount, List.countP_cons]
        rw [show (decide (D.getD i 0 = 0 ∧ g.getD i 0 - 97 = ℓ)) = false from
          decide_eq_false (fun hh => hz hh.1)]
        norm_num
      rw [hqc] at h
      exact h

/-! ### Counting helpers -/

theorem getD_mem (l : List Nat) (i : Nat) (h : i < l.length) : l.getD i 0 ∈ l := by
  rw [List.getD_eq_getElem l 0 h]
  exact List.getElem_mem h

theorem mem_exists_getD (L : List Nat) (x : Nat) (hx : x ∈ L) :
    ∃ i, i < L.length ∧ L.getD i 0 = x := by
  rcases List.mem_iff_get.mp hx with ⟨n, hn⟩
  exact ⟨n.1, n.2, by rw [List.getD_eq_getElem L 0 n.2]; exact hn⟩

theorem encB_replicate (b n : Nat) : encB b (List.replicate n 0) = 0 := by
  induction n with
  | zero => rfl
  | succ n ih => simp [List.replicate, encB, ih]

theorem getD_replicate (n i : Nat) : (List.replicate n 0).getD i 0 = 0 := by
  induction n generalizing i with
  | zero => simp
  | succ n ih =>
    cases i with
    | zero => simp [List.replicate]
    | succ i => simp [List.replicate, ih i]

theorem countP_getD_count : ∀ (l : List Nat) (c : Nat),
    List.countP (fun i => decide (l.getD i 0 = c)) (List.range l.length) = l.count c := by
  intro l
  induction l with
  | nil => intro c; simp
  | cons x xs ih =>
    intro c
    have hr : List.range (xs.length + 1) = 0 :: (List.range xs.length).map Nat.succ :=
      List.range_succ_eq_map xs.length
    show List.countP _ (List.range (xs.length + 1)) = _
    rw [hr, List.countP_cons, List.countP_map]
    have hcg : List.countP
        ((fun i => decide ((x :: xs).getD i 0 = c)) ∘ Nat.succ) (List.range xs.length) =
        List.countP (fun i => decide (xs.getD i 0 = c)) (List.range xs.length) := by
      refine List.countP_congr ?_
      intro j _
      rfl
    rw [hcg, ih c, List.count_cons]
    by_cases hx : x = c
    · rw [show (decide ((x :: xs).getD 0 0 = c)) = true from decide_eq_true hx]
      simp [hx]
    · rw [show (decide ((x :: xs).getD 0 0 = c)) = false from decide_eq_false hx]
      simp [hx]

theorem countP_disjoint_le : ∀ (p q : Nat → Bool) (l : List Nat),
    (∀ x ∈ l, ¬(p x = true ∧ q x = true)) →
    List.countP p l + List.countP q l ≤ l.length := by
  intro p q l
  induction l with
  | nil => intro _; simp
  | cons x xs ih =>
    intro hpq
    rw [List.countP_cons, List.countP_cons]
    have h1 := ih (fun y hy => hpq y (by simp [hy]))
    have h2 := hpq x (by simp)
    by_cases hp : p x = true
    · have hqf : ¬ q x = true := fun hq => h2 ⟨hp, hq⟩
      rw [if_pos hp, if_neg hqf]
      simp only [List.length_cons]
      omega
    · rw [if_neg hp]
      by_cases hq : q x = true
      · rw [if_pos hq]
        simp only [List.length_cons]
        omega
      · rw [if_neg hq]
        simp only [List.length_cons]
        omega

/-- Per-letter availability multiset accumulated by pass 1: how many
non-correct positions of the answer hold letter index `ℓ`. -/
def availCount (g a : Word) (ℓ : Nat) : Nat :=
  List.countP (fun i => decide (g.getD i 0 ≠ a.getD i 0 ∧ a.getD i 0 - 97 = ℓ)) (List.range 5)

theorem wmFrom_eq_capped_main (g a : Word)
    (hg : wordWF g) (ha : wordWF a) (hcnt : ∀ c, a.count c ≤ 3) :
    (∀ ℓ, ℓ < 26 → ((pass1 g a).2 >>> (2 * ℓ)) &&& 3 = availCount g a ℓ ∧ availCount g a ℓ ≤ 3)
    ∧ wmFrom g a = wmFromCapped g a := by
  obtain ⟨hglen, hglc⟩ := hg
  obtain ⟨halen, halc⟩ := ha
  set D0 : List Nat := List.replicate 5 0 with hD0
  set C0 : List Nat := List.replicate 26 0 with hC0
  have haj : ∀ i ∈ List.range 5, 97 ≤ a.getD i 0 ∧ a.getD i 0 ≤ 122 := by
    intro i hi
    exact halc _ (getD_mem a i (by rw [halen]; exact List.mem_range.mp hi))
  have hgj : ∀ i ∈ List.range 5, 97 ≤ g.getD i 0 ∧ g.getD i 0 ≤ 122 := by
    intro i hi
    exact hglc _ (getD_mem g i (by rw [hglen]; exact List.mem_range.mp hi))
  have hD0len : D0.length = 5 := by simp [hD0]
  have hC0len : C0.length = 26 := by simp [hC0]
  have hz3 : encB 3 D0 = 0 := encB_replicate 3 5
  have hz4 : encB 4 C0 = 0 := encB_replicate 4 26
  have hp1 := p1_corr g a (List.range 5) D0 C0
    (fun i hi => by rw [hD0len]; exact List.mem_range.mp hi)
    (fun i hi hne => by rw [hC0len]; have := haj i hi; omega)
  set D1 := (p1goL g a (List.range 5) (D0, C0)).1 with hD1
  set C1 := (p1goL g a (List.range 5) (D0, C0)).2 with hC1
  have h00 : ((0, 0) : Nat × Nat) = (encB 3 D0, encB 4 C0) := by rw [hz3, hz4]
  have hpass1 : pass1 g a = (encB 3 D1, encB 4 C1) := by
    rw [pass1, h00]
    exact hp1
  have hlenp := p1goL_len g a (List.range 5) (D0, C0)
  have hD1len : D1.length = 5 := by rw [← hD0len]; exact hlenp.1
  have hC1len : C1.length = 26 := by rw [← hC0len]; exact hlenp.2
  have hcountsC1 : ∀ ℓ, C1.getD ℓ 0 = availCount g a ℓ := by
    intro ℓ
    have h := p1goL_counts g a (List.range 5) D0 C0 ℓ
      (fun i hi hne => by rw [hC0len]; have := haj i hi; omega)
    have h0 : C0.getD ℓ 0 = 0 := by rw [hC0]; exact getD_replicate 26 ℓ
    rw [availCount]
    show (p1goL g a (List.range 5) (D0, C0)).2.getD ℓ 0 = _
    rw [h, h0]
    omega
  have havail3 : ∀ ℓ, availCount g a ℓ ≤ 3 := by
    intro ℓ
    have hmono : availCount g a ℓ ≤
        List.countP (fun i => decide (a.getD i 0 = ℓ + 97)) (List.range 5) := by
      apply List.countP_mono_left
      intro i hi hp
      have hp' := of_decide_eq_true hp
      have := (haj i hi).1
      exact decide_eq_true (by omega)
    have hcount : List.countP (fun i => decide (a.getD i 0 = ℓ + 97)) (List.range 5) =
        a.count (ℓ + 97) := by
      have h := countP_getD_count a (ℓ + 97)
      rwa [halen] at h
    calc availCount g a ℓ ≤ _ := hmono
    _ = a.count (ℓ + 97) := hcount
    _ ≤ 3 := hcnt _
  have hC1b : ∀ x ∈ C1, x < 4 := by
    intro x hx
    rcases mem_exists_getD C1 x hx with ⟨ℓ, hℓlen, hval⟩
    rw [← hval, hcountsC1 ℓ]
    have := havail3 ℓ
    omega
  have hdigD1 : ∀ j, j < 5 → D1.getD j 0 = (if g.getD j 0 = a.getD j 0 then 2 else 0) := by
    intro j hj
    have h := p1goL_digits g a (List.range 5) D0 C0 j (by rw [hD0len]; exact hj)
      (List.nodup_range 5)
    rw [← hD1] at h
    rw [h, hD0, getD_replicate]
    by_cases hc : g.getD j 0 = a.getD j 0
    · rw [if_pos ⟨List.mem_range.mpr hj, hc⟩, if_pos hc]
    · rw [if_neg (fun hh => hc hh.2), if_neg hc]
  have hD1b : ∀ x ∈ D1, x < 3 := by
    intro x hx
    rcases mem_exists_getD D1 x hx with ⟨j, hjlen, hval⟩
    have hj5 : j < 5 := by rw [← hD1len]; exact hjlen
    rw [← hval, hdigD1 j hj5]
    split <;> omega
  have hp2 := p2_corr g (List.range 5) D1 C1
    (fun i hi => by rw [hD1len]; exact List.mem_range.mp hi)
    (fun i hi => by rw [hC1len]; have := hgj i hi; omega)
    hD1b hC1b
  have hwm : wmFrom g a = encB 3 (p2goL g (List.range 5) (D1, C1)).1 := by
    rw [wmFrom, hpass1, hp2]
  have hC0b : ∀ x ∈ C0, x < 4 := by
    intro x hx
    have := List.eq_of_mem_replicate (hC0 ▸ hx)
    omega
  have hp1c := p1C_corr g a (List.range 5) D0 C0
    (fun i hi => by rw [hD0len]; exact List.mem_range.mp hi)
    (fun i hi hne => by rw [hC0len]; have := haj i hi; omega)
    hC0b
  set C1' := (p1goLC g a (List.range 5) (D0, C0)).2 with hC1'
  have hdigits_eq : (p1goLC g a (List.range 5) (D0, C0)).1 = D1 :=
    p1goLC_digits g a (List.range 5) D0 C0 C0
  have hcmin : ∀ ℓ, C1'.getD ℓ 0 = min (C1.getD ℓ 0) 2 := by
    intro ℓ
    exact p1goLC_counts g a (List.range 5) D0 C0 C0 rfl
      (fun ℓ' => by rw [hC0, getD_replicate]; simp) ℓ
  have hC1'b : ∀ x ∈ C1', x < 4 := by
    intro x hx
    rcases mem_exists_getD C1' x hx with ⟨ℓ, hℓlen, hval⟩
    rw [← hval, hcmin ℓ]
    omega
  have hp2' := p2_corr g (List.range 5) D1 C1'
    (fun i hi => by rw [hD1len]; exact List.mem_range.mp hi)
    (fun i hi => by
      have hlc := p1goL_len g a (List.range 5) (D0, C0)
      have hlenC1' : C1'.length = 26 := by
        have h := (p1goLC_digits g a (List.range 5) D0 C0 C0)
        -- length of capped counts output
        rw [hC1']
        have : ∀ (is : List Nat) (st : List Nat × List Nat),
            (p1goLC g a is st).2.length = st.2.length := by
          intro is
          induction is with
          | nil => intro st; rfl
          | cons i is ih =>
            intro st
            have h := ih (p1stepLC g a st i)
            refine h.trans ?_
            simp only [p1stepLC, bump]
            split
            · rfl
            · split <;> simp
        rw [this, hC0len]
      rw [hlenC1']
      have := hgj i hi
      omega)
    hD1b hC1'b
  have hwmc : wmFromCapped g a = encB 3 (p2goL g (List.range 5) (D1, C1')).1 := by
    rw [wmFromCapped, h00, hp1c, hdigits_eq, hp2']
  have hq5 : ∀ ℓ, qcount g D1 (List.range 5) ℓ + availCount g a ℓ ≤ 5 := by
    intro ℓ
    have hdis := countP_disjoint_le
      (fun i => decide (D1.getD i 0 = 0 ∧ g.getD i 0 - 97 = ℓ))
      (fun i => decide (g.getD i 0 ≠ a.getD i 0 ∧ a.getD i 0 - 97 = ℓ))
      (List.range 5)
      (by
        rintro i hi ⟨hp, hq⟩
        have hp' := of_decide_eq_true hp
        have hq' := of_decide_eq_true hq
        have hga := (hgj i hi).1
        have haa := (haj i hi).1
        have hgaeq : g.getD i 0 = a.getD i 0 := by omega
        exact hq'.1 hgaeq)
    simpa [qcount, availCount] using hdis
  have hmininv : ∀ ℓ, min (C1.getD ℓ 0) (qcount g D1 (List.range 5) ℓ) =
      min (C1'.getD ℓ 0) (qcount g D1 (List.range 5) ℓ) := by
    intro ℓ
    rw [hcmin ℓ, hcountsC1 ℓ]
    have h3 := havail3 ℓ
    have h5 := hq5 ℓ
    omega
  have hequiv := p2goL_equiv g (List.range 5) D1 C1 C1' (List.nodup_range 5) hmininv
  constructor
  · intro ℓ hℓ26
    refine ⟨?_, havail3 ℓ⟩
    rw [hpass1]
    show (encB 4 C1 >>> (2 * ℓ)) &&& 3 = availCount g a ℓ
    rw [shift_and_three, encB_div_pow_mod 4 ℓ C1 hC1b, hcountsC1]
  · rw [hwm, hwmc, hequiv]

/-- C2 counterexample: for the 5-letter lowercase pair guess "bbbbb",
answer "aaaaa", pass 1 leaves availability `5` (binary 101): the
count for letter a has overflowed its 2-bit field, carrying into the
field of letter b, and the packed result (code 1: position 0 marked
Present) differs from the capped reference algorithm's result (code 0:
all Absent).  This refutes the claim that the per-letter availability
count never exceeds 2 and that the result always equals the capped
reference. -/
theorem C2_counterexample :
    wmFrom [98, 98, 98, 98, 98] [97, 97, 97, 97, 97] = 1 ∧
    wmFromCapped [98, 98, 98, 98, 98] [97, 97, 97, 97, 97] = 0 ∧
    (pass1 [98, 98, 98, 98, 98] [97, 97, 97, 97, 97]).2 = 5 := by
  refine ⟨?_, ?_, ?_⟩ <;> decide

/-- C2 (amended): `WordMatch::from` computes feedback by the two-pass
algorithm, but pass 1 adds each non-Correct answer letter to the
availability accumulator WITHOUT a saturating cap.  For every pair of
5-letter lowercase words in which no letter occurs more than 3 times
in the answer, each per-letter 2-bit field of the accumulator holds
exactly the count of non-correct answer positions with that letter
(at most 3, so no carry into an adjacent letter's field), and the
packed result equals the result of the capped reference algorithm. -/
theorem C2_amended (g a : Word) (hg : wordWF g) (ha : wordWF a)
    (hcnt : ∀ c, a.count c ≤ 3) :
    (∀ ℓ, ℓ < 26 →
      ((pass1 g a).2 >>> (2 * ℓ)) &&& 3 = availCount g a ℓ ∧ availCount g a ℓ ≤ 3)
    ∧ wmFrom g a = wmFromCapped g a :=
  wmFrom_eq_capped_main g a hg ha hcnt

/-- Witness for `C2_amended` at guess "sanes", answer "abcde". -/
theorem C2_amended_witness :
    wmFrom [115, 97, 110, 101, 115] [97, 98, 99, 100, 101] =
      wmFromCapped [115, 97, 110, 101, 115] [97, 98, 99, 100, 101] :=
  (C2_amended [115, 97, 110, 101, 115] [97, 98, 99, 100, 101] (by decide) (by decide)
    (fun c => le_trans
      (List.nodup_iff_count_le_one.mp (by decide) c) (by norm_num))).2

/-! ### Dictionaries and partitions (dict.rs)

A `WordDictionary` is a flat byte vector of 5-letter words; we model it
as the list of its words, in storage order.  `partition` groups the
words by feedback code.  `HashMap` iteration order is arbitrary in the
source; we fix the canonical order of first appearance (`dedup` of the
code sequence).  Every property proved about partitions below is
independent of bucket order, as are the numeric results of the solver
folds (sums and minima). -/

def wmCodes (g : Word) (d : List Word) : List Nat := (d.map (wmFrom g)).dedup

def wmBucket (g : Word) (d : List Word) (c : Nat) : List Word :=
  d.filter (fun w => decide (wmFrom g w = c))

def partitionD (g : Word) (d : List Word) : List (Nat × List Word) :=
  (wmCodes g d).map (fun c => (c, wmBucket g d c))

/-- `HashMap::get` on a partition. -/
def pfind (p : List (Nat × List Word)) (c : Nat) : Option (List Word) :=
  (p.find? (fun e => decide (e.1 = c))).map (fun e => e.2)

/-! ### The tree-mode solver (solve.rs)

`Guess` stores a word with the partition it induces on the answer set.
The f64 `entropy` field is `sum over buckets of log2 (bucket length)`;
all the source ever does with it is compare it to `1.0` and to another
entropy.  Both are modelled exactly through the product of bucket
lengths (see the header comment): `entropy < 1.0` iff the product is
`< 2`, and entropy comparisons order like product comparisons. -/

structure GuessInfo where
  word : Word
  partition : List (Nat × List Word)

instance : Inhabited GuessInfo := ⟨⟨[], []⟩⟩

/-- `Guess::new` (solve.rs lines 16-23). -/
def mkGuess (g : Word) (answers : List Word) : GuessInfo := ⟨g, partitionD g answers⟩

/-- Product of bucket lengths: the exact-order stand-in for `entropy`. -/
def scoreP (gi : GuessInfo) : Nat := (gi.partition.map (fun e => e.2.length)).prod

/-- Lexicographic byte order on words (`[u8; 5]` `Ord`). -/
def wordLTb : Word → Word → Bool
  | _, [] => false
  | [], _ :: _ => true
  | x :: xs, y :: ys => if x < y then true else if x = y then wordLTb xs ys else false

/-- `Ord for Guess` (solve.rs lines 107-115): note the REVERSED entropy
comparison — `other.entropy.partial_cmp(&self.entropy)` — then the word
tie-break.  `guessLT x y` holds iff `x.cmp(&y) == Less`, i.e. iff `y`'s
entropy is smaller, or the entropies are equal and `x.word < y.word`. -/
def guessLT (x y : GuessInfo) : Bool :=
  if scoreP y < scoreP x then true
  else if scoreP y = scoreP x then wordLTb x.word y.word
  else false

def guessGT (x y : GuessInfo) : Bool := guessLT y x

/-! `std::collections::BinaryHeap`, modelled on its backing array: push
appends then sifts up; pop swaps the last element to the root and sifts
down.  The sift loops are given explicit fuel equal to a bound on the
number of iterations (the position for sift-up, the array length for
sift-down), so that they are structurally recursive and kernel-
reducible; the fuel never runs out because each sift-up step strictly
decreases the position and each sift-down step strictly increases it.
`pop` in the standard library uses `sift_down_to_bottom`, which
produces the same array as the classic sift-down modelled here whenever
the order has no ties at play (`Guess` equality is word equality, and
the pools in all the concrete runs below have distinct words). -/

def hswap (h : List GuessInfo) (i j : Nat) : List GuessInfo :=
  (h.set i (h.getD j default)).set j (h.getD i default)

def siftUpF : Nat → List GuessInfo → Nat → List GuessInfo
  | 0, h, _ => h
  | fuel + 1, h, pos =>
    if pos = 0 then h
    else
      let parent := (pos - 1) / 2
      if guessGT (h.getD pos default) (h.getD parent default) then
        siftUpF fuel (hswap h pos parent) parent
      else h

def heapPush (h : List GuessInfo) (x : GuessInfo) : List GuessInfo :=
  siftUpF (h.length + 1) (h ++ [x]) h.length

def siftDownF : Nat → List GuessInfo → Nat → List GuessInfo
  | 0, h, _ => h
  | fuel + 1, h, pos =>
    let l := 2 * pos + 1
    let r := 2 * pos + 2
    if l < h.length then
      let c := if r < h.length ∧ guessGT (h.getD r default) (h.getD l default) then r else l
      if guessGT (h.getD c default) (h.getD pos default) then
        siftDownF fuel (hswap h pos c) c
      else h
    else h

def heapPop (h : List GuessInfo) : List GuessInfo :=
  if h.length ≤ 1 then []
  else siftDownF h.length ((h.dropLast).set 0 (h.getLastD default)) 0

/-- Decision-tree node (`Solution`, solve.rs lines 117-121).  `size` is
`u16` in the source, modelled as `Nat` (see header). -/
inductive Solution : Type where
  | mk : Word → Nat → List (Nat × Solution) → Solution

def Solution.guess : Solution → Word
  | ⟨g, _, _⟩ => g

def Solution.size : Solution → Nat
  | ⟨_, s, _⟩ => s

def Solution.solution : Solution → List (Nat × Solution)
  | ⟨_, _, l⟩ => l

/-- `Guess::fast_solution` (solve.rs lines 25-49): `entropy < 1.0` is
modelled by `scoreP < 2` (exact, see header). -/
def fastSolution (gi : GuessInfo) (depth : Nat) : Option Solution :=
  if scoreP gi < 2 ∧ 1 < depth ∧ (pfind gi.partition CORRECT).isSome then
    some (Solution.mk (((pfind gi.partition CORRECT).getD []).headD [])
      (2 * gi.partition.length - 1)
      (gi.partition.map (fun e => (e.1, Solution.mk (e.2.headD []) 1 []))))
  else none

/-- The `try_for_each` scan of solve (solve.rs lines 162-179): skip
degenerate candidates, break on the first firing fast solution,
otherwise maintain the bounded binary heap.  `capacity` is modelled as
exactly `breadth` (`BinaryHeap::with_capacity(breadth)`); `peek` is the
root, element 0.  With `breadth = 0` the source would panic on
`peek().unwrap()`; that case is modelled as pushing into the emptied
heap and is not exercised by any claim. -/
def scanG (answers : List Word) (breadth depth : Nat) :
    List Word → List GuessInfo → Sum Solution (List GuessInfo)
  | [], heap => Sum.inr heap
  | g :: gs, heap =>
    let gi := mkGuess g answers
    if gi.partition.length = 1 then scanG answers breadth depth gs heap
    else
      match fastSolution gi (depth - 1) with
      | some s => Sum.inl s
      | none =>
        if heap.length < breadth then scanG answers breadth depth gs (heapPush heap gi)
        else if guessLT gi (heap.headD default) then
          scanG answers breadth depth gs (heapPush (heapPop heap) gi)
        else scanG answers breadth depth gs heap

/-- `min_by_key(|s| s.size)` over rayon's parallel iterator: the reduce
keeps the earlier element on ties, so the result is the first minimum
in the heap's backing-array order. -/
def minBySize : List Solution → Option Solution
  | [] => none
  | s :: rest => some (rest.foldl (fun acc t => if t.size < acc.size then t else acc) s)

/-- The guess pool passed to the recursive call for the bucket keyed
`wm` (solve.rs lines 72-78).  `same` models `ptr::eq(guesses, answers)`
(true only when the caller passed the same dictionary for both pools,
as `main` does under `--limit-guesses`).  `partitions.get(&wm).unwrap()`
panics when the key is missing; that is modelled as the empty pool (it
is unreachable when every answer is also a legal guess). -/
def nextPool (hard same : Bool) (guesses : List Word)
    (partitions : List (Nat × List Word)) (wm : Nat) (dict : List Word) : List Word :=
  if hard && same then dict
  else if hard then (pfind partitions wm).getD []
  else guesses

/-- The `try_fold` of `Guess::slow_solution` (solve.rs lines 69-89),
parameterised by the recursive `solve` call at the already-decremented
depth.  The recursive call's pools are pointer-equal exactly when
`hard && same`. -/
def slowFoldF (recur : List Word → List Word → Bool → Option Solution)
    (hard same : Bool) (guesses : List Word) (partitions : List (Nat × List Word)) :
    List (Nat × List Word) → Solution → Option Solution
  | [], acc => some acc
  | (wm, dict) :: rest, acc =>
    match recur (nextPool hard same guesses partitions wm dict) dict (hard && same) with
    | none => none
    | some sub =>
      slowFoldF recur hard same guesses partitions rest
        (Solution.mk acc.guess
          (acc.size + dict.length + (if wm ≠ CORRECT then sub.size else 0))
          (acc.solution ++ [(wm, sub)]))

/-- `Guess::slow_solution` body (solve.rs lines 51-90): the secondary
partition of the guess pool is computed once, before the fold, and only
in hard mode with distinct pools. -/
def slowSolutionF (recur : List Word → List Word → Bool → Option Solution)
    (gi : GuessInfo) (guesses : List Word) (hard same : Bool) : Option Solution :=
  let partitions := if hard && !same then partitionD gi.word guesses else []
  slowFoldF recur hard same guesses partitions gi.partition (Solution.mk gi.word 0 [])

/-- `filter_map(slow_solution)` over the heap's backing array. -/
def expandF (recur : List Word → List Word → Bool → Option Solution)
    (hard same : Bool) (guesses : List Word) : List GuessInfo → List Solution
  | [] => []
  | gi :: rest =>
    match slowSolutionF recur gi guesses hard same with
    | none => expandF recur hard same guesses rest
    | some s => s :: expandF recur hard same guesses rest

/-- `solve` (solve.rs lines 145-187), structurally recursive on the
depth budget.  The source checks `answers.len() == 1` first (a leaf at
any depth), then `depth == 1`.  A call with `depth == 0` and several
answers would underflow `depth - 1` in the source (a panic in debug
builds); it is modelled as `none` and exercised by no claim. -/
def solveGo : Nat → List Word → List Word → Nat → Bool → Bool → Option Solution
  | 0, _, answers, _, _, _ =>
    if answers.length = 1 then some (Solution.mk (answers.headD []) 1 []) else none
  | 1, _, answers, _, _, _ =>
    if answers.length = 1 then some (Solution.mk (answers.headD []) 1 []) else none
  | depth + 2, guesses, answers, breadth, hard, same =>
    if answers.length = 1 then some (Solution.mk (answers.headD []) 1 [])
    else
      match scanG answers breadth (depth + 2) guesses [] with
      | Sum.inl s => some s
      | Sum.inr heap =>
        minBySize (expandF
          (fun gs as sm => solveGo (depth + 1) gs as breadth hard sm)
          hard same guesses heap)

def solve (guesses answers : List Word) (breadth depth : Nat) (hard same : Bool) :
    Option Solution :=
  solveGo depth guesses answers breadth hard same

/-- `Guess::slow_solution` as a standalone entry point (called directly
by `main` under `--guess`), at its own depth parameter. -/
def slowSolution (gi : GuessInfo) (guesses : List Word) (breadth depth : Nat)
    (hard same : Bool) : Option Solution :=
  slowSolutionF (fun gs as sm => solveGo depth gs as breadth hard sm) gi guesses hard same

/-! ### Batch cost modes (solve.rs lines 189-271)

`par_process(weight, f)` filters out failures, takes the minimum
successful cost and adds the base weight; rayon's parallel `min` over
`u32` is the plain minimum, so the result is order-independent.
`try_fold` over the partition's buckets aborts on the first `None`;
since addition is commutative and a single `None` makes the whole
result `None`, the result does not depend on the `HashMap` iteration
order either. -/

def parProcess (d : List Word) (weight : Nat) (f : Word → Option Nat) : Option Nat :=
  ((d.filterMap f).min?).map (fun sub => weight + sub)

def tryFoldOpt (f : Nat → List Word → Option Nat) :
    List (List Word) → Nat → Option Nat
  | [], acc => some acc
  | d :: rest, acc =>
    match f acc d with
    | none => none
    | some acc' => tryFoldOpt f rest acc'

def tryFoldOptP (f : Nat → (Nat × List Word) → Option Nat) :
    List (Nat × List Word) → Nat → Option Nat
  | [], acc => some acc
  | e :: rest, acc =>
    match f acc e with
    | none => none
    | some acc' => tryFoldOptP f rest acc'

/-- `solve_easy` (solve.rs lines 208-236). -/
def solveEasy (g : Word) (guesses answers : List Word) (depth : Nat) : Option Nat :=
  if answers.length = 1 then some 1
  else match depth with
    | 0 => none
    | d + 1 =>
      let part := partitionD g answers
      if part.length = 1 then none
      else
        let init := if (pfind part CORRECT).isSome then 1 else 0
        let rest := part.filter (fun e => decide (e.1 ≠ CORRECT))
        if rest.length = answers.length then some (2 * rest.length - init)
        else
          tryFoldOpt
            (fun total dict =>
              parProcess guesses (total + dict.length)
                (fun g2 => solveEasy g2 guesses dict d))
            (rest.map (fun e => e.2)) init

/-- `solve_hard` (solve.rs lines 238-271): one secondary partition of the
guess pool, then per-bucket recursion through `solve_easy` on the
restricted pool. -/
def solveHard (g : Word) (guesses answers : List Word) (depth : Nat) : Option Nat :=
  if answers.length = 1 then some 1
  else match depth with
    | 0 => none
    | d + 1 =>
      let part := partitionD g answers
      if part.length = 1 then none
      else
        let init := if (pfind part CORRECT).isSome then 1 else 0
        let rest := part.filter (fun e => decide (e.1 ≠ CORRECT))
        if rest.length = answers.length then some (2 * rest.length - init)
        else
          let gpart := partitionD g guesses
          tryFoldOptP
            (fun total e =>
              match pfind gpart e.1 with
              | none => none
              | some gs2 =>
                parProcess gs2 (total + e.2.length)
                  (fun g2 => solveEasy g2 gs2 e.2 d))
            rest init

/-- `solve_hard_limited` (solve.rs lines 189-206), instantiated at the
word-list dictionary (the `OffsetDictionary` instance differs only in
looking feedback up in a precomputed table of the same function). -/
def solveHardLimited (g : Word) (dict : List Word) (depth : Nat) : Option Nat :=
  if dict.length = 1 then some 1
  else match depth with
    | 0 => none
    | d + 1 =>
      let part := partitionD g dict
      if part.length = dict.length then some (2 * part.length - 1)
      else
        let rest := part.filter (fun e => decide (e.1 ≠ CORRECT))
        tryFoldOpt
          (fun total dict2 =>
            parProcess dict2 (total + dict2.length)
              (fun g2 => solveHardLimited g2 dict2 d))
          (rest.map (fun e => e.2)) 1

/-! ### Claim C1: beam retention discipline -/

/-- C1 (code bug): `Ord for Guess` reverses the entropy comparison, so
the bounded `BinaryHeap` in `solve` retains the `breadth` candidates of
HIGHEST score (least promising), evicting the best retained candidate
when a strictly worse one arrives — the opposite of the documented
"ascending score is more promising" retention.  Concrete run: answer
pool `{abcde, fghij, klmno}`, guesses `afkyy` (score: three singleton
buckets, product 1, entropy 0) and `abcde` (score: buckets of sizes 1
and 2, product 2, entropy 1), breadth 1, depth 2, easy mode.  The
better candidate `afkyy` (whose full expansion succeeds with size 6) is
evicted in favour of `abcde`, whose expansion fails at this depth, so
`solve` returns `none` instead of the `afkyy` tree. -/
theorem C1_bug_eval :
    scoreP (mkGuess [97, 102, 107, 121, 121]
      [[97, 98, 99, 100, 101], [102, 103, 104, 105, 106], [107, 108, 109, 110, 111]]) = 1 ∧
    scoreP (mkGuess [97, 98, 99, 100, 101]
      [[97, 98, 99, 100, 101], [102, 103, 104, 105, 106], [107, 108, 109, 110, 111]]) = 2 ∧
    scanG [[97, 98, 99, 100, 101], [102, 103, 104, 105, 106], [107, 108, 109, 110, 111]] 1 2
        [[97, 102, 107, 121, 121], [97, 98, 99, 100, 101]] [] =
      Sum.inr [mkGuess [97, 98, 99, 100, 101]
        [[97, 98, 99, 100, 101], [102, 103, 104, 105, 106], [107, 108, 109, 110, 111]]] ∧
    solve [[97, 102, 107, 121, 121], [97, 98, 99, 100, 101]]
      [[97, 98, 99, 100, 101], [102, 103, 104, 105, 106], [107, 108, 109, 110, 111]]
      1 2 false false = none ∧
    (slowSolution (mkGuess [97, 102, 107, 121, 121]
        [[97, 98, 99, 100, 101], [102, 103, 104, 105, 106], [107, 108, 109, 110, 111]])
      [[97, 102, 107, 121, 121], [97, 98, 99, 100, 101]] 1 1 false false).map Solution.size =
      some 6 :=
  ⟨rfl, rfl, rfl, rfl, rfl⟩

/-! ### Claims C4, C7, C10 -/

theorem minBySize_spec : ∀ (l : List Solution) (s : Solution),
    minBySize l = some s → s ∈ l ∧ ∀ t ∈ l, s.size ≤ t.size := by
  have key : ∀ (l : List Solution) (s0 : Solution),
      (l.foldl (fun acc t => if t.size < acc.size then t else acc) s0) ∈ s0 :: l ∧
      (l.foldl (fun acc t => if t.size < acc.size then t else acc) s0).size ≤ s0.size ∧
      ∀ t ∈ l, (l.foldl (fun acc t => if t.size < acc.size then t else acc) s0).size ≤ t.size := by
    intro l
    induction l with
    | nil => intro s0; refine ⟨by simp, le_refl _, by simp⟩
    | cons x xs ih =>
      intro s0
      show ((xs.foldl _ (if x.size < s0.size then x else s0)) ∈ s0 :: x :: xs) ∧ _ ∧ _
      rcases ih (if x.size < s0.size then x else s0) with ⟨hmem, hle, hall⟩
      constructor
      · rcases List.mem_cons.mp hmem with h | h
        · rw [h]
          by_cases hx : x.size < s0.size
          · rw [if_pos hx]; exact List.mem_cons_of_mem _ (List.mem_cons_self _ _)
          · rw [if_neg hx]; exact List.mem_cons_self _ _
        · exact List.mem_cons_of_mem _ (List.mem_cons_of_mem _ h)
      constructor
      · refine le_trans hle ?_
        by_cases hx : x.size < s0.size
        · rw [if_pos hx]; omega
        · rw [if_neg hx]
      · intro t ht
        rcases List.mem_cons.mp ht with h | h
        · subst h
          refine le_trans hle ?_
          by_cases hx : t.size < s0.size
          · rw [if_pos hx]
          · rw [if_neg hx]; omega
        · exact hall t h
  intro l s hs
  cases l with
  | nil => exact absurd hs (by simp [minBySize])
  | cons x xs =>
    have hx : s = xs.foldl (fun acc t => if t.size < acc.size then t else acc) x := by
      have := hs
      simp only [minBySize, Option.some_inj] at this
      exact this.symm
    rcases key xs x with ⟨hmem, hle, hall⟩
    rw [hx]
    refine ⟨hmem, ?_⟩
    intro t ht
    rcases List.mem_cons.mp ht with h | h
    · subst h; exact hle
    · exact hall t h

/-- C4 (amended): when `solve` reaches the parallel-expansion phase
(answer set not a singleton, no fast solution, so the scan returns the
retained heap), it returns an expansion of minimal `size` among the
retained candidates whose expansion succeeds; among several expansions
of equal minimal size it returns the FIRST in the heap's backing-array
order (rayon's `min_by_key` reduction keeps the earlier element on
ties), which need not be the least guess word. -/
theorem C4_amended (guesses answers : List Word) (breadth depth : Nat)
    (hard same : Bool) (heap : List GuessInfo) (s : Solution)
    (hlen : ¬ answers.length = 1)
    (hscan : scanG answers breadth (depth + 2) guesses [] = Sum.inr heap)
    (hres : solve guesses answers breadth (depth + 2) hard same = some s) :
    s ∈ expandF (fun gs as sm => solveGo (depth + 1) gs as breadth hard sm)
        hard same guesses heap ∧
    ∀ t ∈ expandF (fun gs as sm => solveGo (depth + 1) gs as breadth hard sm)
        hard same guesses heap,
      s.size ≤ t.size := by
  have h : solve guesses answers breadth (depth + 2) hard same =
      minBySize (expandF (fun gs as sm => solveGo (depth + 1) gs as breadth hard sm)
        hard same guesses heap) := by
    show solveGo (depth + 2) guesses answers breadth hard same = _
    simp only [solveGo]
    rw [if_neg hlen, hscan]
  rw [h] at hres
  exact minBySize_spec _ s hres

/-- C4 counterexample: answers `{abcde, fghij}`, guesses
`{aaaaa, zzzzf}`, breadth 2, depth 2, easy mode.  Both candidates fully
expand with equal size 4, `aaaaa < zzzzf` in word order, yet `solve`
returns the `zzzzf` expansion (the first in heap order), so ties are
NOT broken by least guess word. -/
theorem C4_counterexample :
    (solve [[97, 97, 97, 97, 97], [122, 122, 122, 122, 102]]
        [[97, 98, 99, 100, 101], [102, 103, 104, 105, 106]] 2 2 false false).map
        Solution.guess = some [122, 122, 122, 122, 102] ∧
    (solve [[97, 97, 97, 97, 97], [122, 122, 122, 122, 102]]
        [[97, 98, 99, 100, 101], [102, 103, 104, 105, 106]] 2 2 false false).map
        Solution.size = some 4 ∧
    (slowSolution (mkGuess [97, 97, 97, 97, 97]
          [[97, 98, 99, 100, 101], [102, 103, 104, 105, 106]])
        [[97, 97, 97, 97, 97], [122, 122, 122, 122, 102]] 2 1 false false).map
        Solution.size = some 4 ∧
    wordLTb [97, 97, 97, 97, 97] [122, 122, 122, 122, 102] = true :=
  ⟨rfl, rfl, rfl, rfl⟩

/-- C7 (confirmed): `solve`'s base cases — a singleton answer set yields
the 1-guess leaf on that word for every breadth, depth and mode; and
`depth = 1` with several answers yields `none`. -/
theorem C7_base_cases :
    (∀ (guesses : List Word) (w : Word) (breadth depth : Nat) (hard same : Bool),
      solve guesses [w] breadth depth hard same = some (Solution.mk w 1 [])) ∧
    (∀ (guesses answers : List Word) (breadth : Nat) (hard same : Bool),
      1 < answers.length → solve guesses answers breadth 1 hard same = none) := by
  constructor
  · intro guesses w breadth depth hard same
    rcases depth with _ | _ | d <;> simp [solve, solveGo]
  · intro guesses answers breadth hard same hlen
    show solveGo 1 guesses answers breadth hard same = none
    simp only [solveGo]
    rw [if_neg (by omega)]

/-- Witness for `C7_base_cases`. -/
theorem C7_base_cases_witness :
    solve [] [[97, 97, 97, 97, 97]] 3 0 true false =
      some (Solution.mk [97, 97, 97, 97, 97] 1 []) ∧
    solve [] [[97, 97, 97, 97, 97], [98, 98, 98, 98, 98]] 2 1 false false = none :=
  ⟨C7_base_cases.1 [] [97, 97, 97, 97, 97] 3 0 true false,
    C7_base_cases.2 [] [[97, 97, 97, 97, 97], [98, 98, 98, 98, 98]] 2 false false
      (by norm_num)⟩

/-- C10 (confirmed): for more than one answer and positive depth, a
fixed opening guess whose partition of the answer set has exactly one
bucket makes `solve_easy` and `solve_hard` return `none`, whatever
depth budget remains. -/
theorem C10_degenerate (g : Word) (guesses answers : List Word) (depth : Nat)
    (hlen : 1 < answers.length) (hdep : 1 ≤ depth)
    (hdeg : (partitionD g answers).length = 1) :
    solveEasy g guesses answers depth = none ∧ solveHard g guesses answers depth = none := by
  have h1 : ¬ answers.length = 1 := by omega
  rcases depth with _ | d
  · omega
  · constructor <;>
      · simp only [solveEasy, solveHard]
        rw [if_neg h1, if_pos hdeg]

/-- Witness for `C10_degenerate`: the guess `vwxyz` shares no letters
with either answer, so the partition is the single bucket of code 0. -/
theorem C10_degenerate_witness :
    solveEasy [118, 119, 120, 121, 122] []
      [[97, 97, 97, 97, 97], [98, 98, 98, 98, 98]] 6 = none ∧
    solveHard [118, 119, 120, 121, 122] []
      [[97, 97, 97, 97, 97], [98, 98, 98, 98, 98]] 6 = none :=
  C10_degenerate [118, 119, 120, 121, 122] []
    [[97, 97, 97, 97, 97], [98, 98, 98, 98, 98]] 6 (by norm_num) (by norm_num) (by rfl)

/-- Witness for `C4_amended` at the concrete run of `C4_counterexample`. -/
theorem C4_amended_witness :
    (Solution.mk [122, 122, 122, 122, 102] 4
        [(0, Solution.mk [97, 98, 99, 100, 101] 1 []),
          (81, Solution.mk [102, 103, 104, 105, 106] 1 [])]) ∈
      expandF (fun gs as sm => solveGo 1 gs as 2 false sm) false false
        [[97, 97, 97, 97, 97], [122, 122, 122, 122, 102]]
        [mkGuess [122, 122, 122, 122, 102]
            [[97, 98, 99, 100, 101], [102, 103, 104, 105, 106]],
          mkGuess [97, 97, 97, 97, 97]
            [[97, 98, 99, 100, 101], [102, 103, 104, 105, 106]]] :=
  (C4_amended [[97, 97, 97, 97, 97], [122, 122, 122, 122, 102]]
    [[97, 98, 99, 100, 101], [102, 103, 104, 105, 106]] 2 0 false false
    [mkGuess [122, 122, 122, 122, 102]
        [[97, 98, 99, 100, 101], [102, 103, 104, 105, 106]],
      mkGuess [97, 97, 97, 97, 97]
        [[97, 98, 99, 100, 101], [102, 103, 104, 105, 106]]]
    (Solution.mk [122, 122, 122, 122, 102] 4
      [(0, Solution.mk [97, 98, 99, 100, 101] 1 []),
        (81, Solution.mk [102, 103, 104, 105, 106] 1 [])])
    (by norm_num) rfl rfl).1

/-! ### Claim C3: partition is a partition -/

theorem wmBucket_length (g : Word) (d : List Word) (c : Nat) :
    (wmBucket g d c).length = List.count c (d.map (wmFrom g)) := by
  rw [wmBucket, ← List.countP_eq_length_filter]
  show _ = List.countP (fun x => x == c) (d.map (wmFrom g))
  rw [List.countP_map]
  refine List.countP_congr ?_
  intro w _
  show decide (wmFrom g w = c) = true ↔ (wmFrom g w == c) = true
  by_cases h : wmFrom g w = c <;> simp [h]

theorem partition_sum_lengths (g : Word) (d : List Word) :
    ((partitionD g d).map (fun e => e.2.length)).sum = d.length := by
  rw [partitionD, List.map_map]
  have hmap : ((fun e : Nat × List Word => e.2.length) ∘ fun c => (c, wmBucket g d c)) =
      fun c => List.count c (d.map (wmFrom g)) := by
    funext c
    exact wmBucket_length g d c
  rw [hmap]
  show ((wmCodes g d).map fun c => List.count c (d.map (wmFrom g))).sum = d.length
  rw [wmCodes, List.sum_map_count_dedup_eq_length, List.length_map]

theorem partition_bucket_code (g : Word) (d : List Word) :
    ∀ c b, (c, b) ∈ partitionD g d → ∀ w ∈ b, wmFrom g w = c := by
  intro c b hmem w hw
  rcases List.mem_map.mp hmem with ⟨c', _, hc'⟩
  have hb : b = wmBucket g d c := by
    have h1 : c' = c := congrArg Prod.fst hc'
    have h2 : wmBucket g d c' = b := congrArg Prod.snd hc'
    rw [← h2, h1]
  rw [hb] at hw
  exact of_decide_eq_true (List.mem_filter.mp hw).2

theorem partition_bucket_ne_nil (g : Word) (d : List Word) :
    ∀ c b, (c, b) ∈ partitionD g d → b ≠ [] := by
  intro c b hmem
  rcases List.mem_map.mp hmem with ⟨c', hc'mem, hc'⟩
  have h2 : wmBucket g d c' = b := congrArg Prod.snd hc'
  have : c' ∈ d.map (wmFrom g) := List.mem_dedup.mp hc'mem
  rcases List.mem_map.mp this with ⟨w, hwmem, hwc⟩
  have : w ∈ wmBucket g d c' := by
    rw [wmBucket, List.mem_filter]
    exact ⟨hwmem, decide_eq_true hwc⟩
  rw [h2] at this
  exact List.ne_nil_of_mem this

/-- C3 (confirmed): for every dictionary and guess, `partition` is a
partition — buckets for distinct codes are disjoint, the bucket lengths
sum to the dictionary length, each member of the bucket keyed `c` has
feedback code `c` against the guess, and every listed bucket is
non-empty. -/
theorem C3_partition (g : Word) (d : List Word) :
    (∀ c₁ c₂, c₁ ≠ c₂ → ∀ w ∈ wmBucket g d c₁, w ∉ wmBucket g d c₂) ∧
    ((partitionD g d).map (fun e => e.2.length)).sum = d.length ∧
    (∀ c b, (c, b) ∈ partitionD g d → ∀ w ∈ b, wmFrom g w = c) ∧
    (∀ c b, (c, b) ∈ partitionD g d → b ≠ []) := by
  refine ⟨?_, partition_sum_lengths g d, partition_bucket_code g d,
    partition_bucket_ne_nil g d⟩
  intro c₁ c₂ hne w h1 h2
  have e1 := of_decide_eq_true (List.mem_filter.mp h1).2
  have e2 := of_decide_eq_true (List.mem_filter.mp h2).2
  exact hne (e1 ▸ e2)

/-- Witness for `C3_partition`: the partition of the three-word pool by
guess `abcde` has bucket lengths summing to 3, and `abcde` (which is in
the bucket of code 242) is not in the bucket of code 0. -/
theorem C3_partition_witness :
    ((partitionD [97, 98, 99, 100, 101]
        [[97, 98, 99, 100, 101], [102, 103, 104, 105, 106],
          [107, 108, 109, 110, 111]]).map (fun e => e.2.length)).sum = 3 ∧
    [97, 98, 99, 100, 101] ∉ wmBucket [97, 98, 99, 100, 101]
      [[97, 98, 99, 100, 101], [102, 103, 104, 105, 106], [107, 108, 109, 110, 111]] 0 :=
  ⟨(C3_partition [97, 98, 99, 100, 101]
      [[97, 98, 99, 100, 101], [102, 103, 104, 105, 106], [107, 108, 109, 110, 111]]).2.1,
    (C3_partition [97, 98, 99, 100, 101]
      [[97, 98, 99, 100, 101], [102, 103, 104, 105, 106], [107, 108, 109, 110, 111]]).1
      242 0 (by norm_num) [97, 98, 99, 100, 101] (by decide)⟩

/-! ### Claim C5: batch short-circuit arithmetic -/

theorem pfind_map (f : Nat → List Word) :
    ∀ (l : List Nat) (c : Nat),
      pfind (l.map (fun c' => (c', f c'))) c = if c ∈ l then some (f c) else none := by
  intro l
  induction l with
  | nil => intro c; simp [pfind]
  | cons c' l ih =>
    intro c
    show ((List.find? _ (((c', f c') :: l.map (fun x => (x, f x))))).map _) = _
    rw [List.find?_cons]
    by_cases hc : c' = c
    · subst hc
      rw [show (decide ((c', f c').1 = c')) = true from decide_eq_true rfl]
      simp
    · rw [show (decide ((c', f c').1 = c)) = false from decide_eq_false hc]
      show pfind (l.map (fun x => (x, f x))) c = _
      rw [ih c]
      by_cases hm : c ∈ l
      · rw [if_pos hm, if_pos (List.mem_cons_of_mem _ hm)]
      · rw [if_neg hm, if_neg (by
          intro hmem
          rcases List.mem_cons.mp hmem with h | h
          · exact hc h.symm
          · exact hm h)]

theorem pfind_partitionD (g : Word) (d : List Word) (c : Nat) :
    pfind (partitionD g d) c =
      if c ∈ wmCodes g d then some (wmBucket g d c) else none :=
  pfind_map (wmBucket g d) (wmCodes g d) c

theorem solveEasy_singleton (g : Word) (guesses answers : List Word) (depth : Nat)
    (h : answers.length = 1) : solveEasy g guesses answers depth = some 1 := by
  cases depth <;> simp [solveEasy, h]

theorem min?_const_one : ∀ (l : List Nat), (∀ x ∈ l, x = 1) → l ≠ [] → l.min? = some 1 := by
  have key : ∀ (l : List Nat), (∀ x ∈ l, x = 1) → l.foldl min 1 = 1 := by
    intro l
    induction l with
    | nil => intro _; rfl
    | cons x xs ih =>
      intro h
      show (xs.foldl min (min 1 x)) = 1
      rw [h x (by simp), min_self]
      exact ih (fun y hy => h y (by simp [hy]))
  intro l hl hne
  cases l with
  | nil => exact absurd rfl hne
  | cons x xs =>
    show some (xs.foldl min x) = some 1
    rw [hl x (by simp)]
    rw [key xs (fun y hy => hl y (by simp [hy]))]

theorem filterMap_const_one : ∀ (d : List Word) (f : Word → Option Nat),
    (∀ x ∈ d, f x = some 1) → d.filterMap f = d.map (fun _ => 1) := by
  intro d
  induction d with
  | nil => intro f _; rfl
  | cons x xs ih =>
    intro f hf
    rw [List.filterMap_cons, hf x (by simp), ih f (fun y hy => hf y (by simp [hy]))]
    rfl

theorem parProcess_const_one (d : List Word) (w : Nat) (f : Word → Option Nat)
    (hf : ∀ x ∈ d, f x = some 1) (hne : d ≠ []) :
    parProcess d w f = some (w + 1) := by
  have hfm : d.filterMap f = d.map (fun _ => 1) := filterMap_const_one d f hf
  rw [parProcess, hfm, min?_const_one _ (by
      intro x hx
      rcases List.mem_map.mp hx with ⟨_, _, h⟩
      exact h.symm)
    (by
      intro h
      apply hne
      cases d with
      | nil => rfl
      | cons x xs => exact absurd h (by simp))]
  rfl

theorem tryFoldOpt_add_two : ∀ (bs : List (List Word)) (f : Nat → List Word → Option Nat),
    (∀ acc b, b ∈ bs → f acc b = some (acc + 2)) →
    ∀ acc, tryFoldOpt f bs acc = some (acc + 2 * bs.length) := by
  intro bs
  induction bs with
  | nil => intro f _ acc; simp [tryFoldOpt]
  | cons b rest ih =>
    intro f hf acc
    show (match f acc b with
      | none => none
      | some acc' => tryFoldOpt f rest acc') = _
    rw [hf acc b (by simp)]
    show tryFoldOpt f rest (acc + 2) = _
    rw [ih f (fun a c hc => hf a c (by simp [hc])) (acc + 2)]
    congr 1
    simp [List.length_cons]
    ring

theorem tryFoldOptP_add_two : ∀ (bs : List (Nat × List Word))
    (f : Nat → (Nat × List Word) → Option Nat),
    (∀ acc e, e ∈ bs → f acc e = some (acc + 2)) →
    ∀ acc, tryFoldOptP f bs acc = some (acc + 2 * bs.length) := by
  intro bs
  induction bs with
  | nil => intro f _ acc; simp [tryFoldOptP]
  | cons b rest ih =>
    intro f hf acc
    show (match f acc b with
      | none => none
      | some acc' => tryFoldOptP f rest acc') = _
    rw [hf acc b (by simp)]
    show tryFoldOptP f rest (acc + 2) = _
    rw [ih f (fun a c hc => hf a c (by simp [hc])) (acc + 2)]
    congr 1
    simp [List.length_cons]
    ring

theorem sum_eq_length_all_one : ∀ (l : List Nat), (∀ x ∈ l, 1 ≤ x) → l.sum = l.length →
    ∀ x ∈ l, x = 1 := by
  intro l
  induction l with
  | nil => intro _ _ x hx; exact absurd hx (by simp)
  | cons y ys ih =>
    intro h1 hsum x hx
    have hys : ys.sum ≥ ys.length := by
      clear hsum hx ih
      induction ys with
      | nil => simp
      | cons z zs ihz =>
        have hz := h1 z (by simp)
        have := ihz (fun w hw => h1 w (by
          rcases List.mem_cons.mp hw with h | h
          · simp [h]
          · simp [List.mem_cons_of_mem _ h]))
        simp only [List.sum_cons, List.length_cons]
        omega
    have hy := h1 y (by simp)
    simp only [List.sum_cons, List.length_cons] at hsum
    have hyeq : y = 1 := by omega
    have hsum' : ys.sum = ys.length := by omega
    rcases List.mem_cons.mp hx with h | h
    · rw [h, hyeq]
    · exact ih (fun w hw => h1 w (by simp [List.mem_cons_of_mem _ hw])) hsum' x h

theorem nodup_filter_ne_length : ∀ (l : List Nat) (x : Nat), l.Nodup → x ∈ l →
    (l.filter (fun c => decide (c ≠ x))).length = l.length - 1 := by
  intro l x
  induction l with
  | nil => intro _ hx; exact absurd hx (by simp)
  | cons y ys ih =>
    intro hnd hx
    rcases List.nodup_cons.mp hnd with ⟨hny, hnd'⟩
    by_cases hyx : y = x
    · subst hyx
      rw [List.filter_cons, show (decide (y ≠ y)) = false from decide_eq_false (by simp)]
      simp only [Bool.false_eq_true, if_false, List.length_cons]
      rw [List.filter_eq_self.mpr (by
        intro a ha
        exact decide_eq_true (fun hax => hny (hax ▸ ha)))]
      omega
    · have hx' : x ∈ ys := by
        rcases List.mem_cons.mp hx with h | h
        · exact absurd h.symm hyx
        · exact h
      rw [List.filter_cons, show (decide (y ≠ x)) = true from decide_eq_true hyx]
      simp only [if_true, List.length_cons]
      rw [ih hnd' hx']
      have : 1 ≤ ys.length := List.length_pos.mpr (List.ne_nil_of_mem hx')
      omega

theorem partition_buckets_len_one (g : Word) (as : List Word)
    (hall : (wmCodes g as).length = as.length) :
    ∀ e ∈ partitionD g as, e.2.length = 1 := by
  intro e he
  have hsum := partition_sum_lengths g as
  have hlenp : (partitionD g as).length = (wmCodes g as).length := by
    rw [partitionD, List.length_map]
  have hpos : ∀ x ∈ (partitionD g as).map (fun e => e.2.length), 1 ≤ x := by
    intro x hx
    rcases List.mem_map.mp hx with ⟨e', he', hxe⟩
    have hne := partition_bucket_ne_nil g as e'.1 e'.2 (by rw [Prod.mk.eta]; exact he')
    rw [← hxe]
    exact List.length_pos.mpr hne
  have hlen : ((partitionD g as).map (fun e => e.2.length)).length = as.length := by
    rw [List.length_map, hlenp, hall]
  exact sum_eq_length_all_one _ hpos (by rw [hsum, hlen]) _ (List.mem_map.mpr ⟨e, he, rfl⟩)

theorem bucket_ne_nil_code_mem (g : Word) (d : List Word) (c : Nat)
    (hne : wmBucket g d c ≠ []) : c ∈ wmCodes g d := by
  rcases List.exists_mem_of_ne_nil _ hne with ⟨w, hw⟩
  rcases List.mem_filter.mp hw with ⟨hwd, hwc⟩
  rw [wmCodes, List.mem_dedup]
  exact List.mem_map.mpr ⟨w, hwd, of_decide_eq_true hwc⟩

theorem restFilter_eq (g : Word) (as : List Word) :
    (partitionD g as).filter (fun e => decide (e.1 ≠ CORRECT)) =
      ((wmCodes g as).filter (fun c => decide (c ≠ CORRECT))).map
        (fun c => (c, wmBucket g as c)) := by
  rw [partitionD, List.filter_map]
  rfl

theorem solveEasy_allSingleton_noCorrect (g : Word) (guesses answers : List Word)
    (depth : Nat) (hn : 1 < answers.length) (hd : 1 ≤ depth)
    (hnc : CORRECT ∉ wmCodes g answers)
    (hall : (wmCodes g answers).length = answers.length) :
    solveEasy g guesses answers depth = some (2 * answers.length) := by
  rcases depth with _ | d
  · omega
  have h1 : ¬ answers.length = 1 := by omega
  have hplen : (partitionD g answers).length = (wmCodes g answers).length := by
    rw [partitionD, List.length_map]
  have hfind : pfind (partitionD g answers) CORRECT = none := by
    rw [pfind_partitionD, if_neg hnc]
  have hrest : (partitionD g answers).filter (fun e => decide (e.1 ≠ CORRECT)) =
      partitionD g answers := by
    rw [List.filter_eq_self]
    intro e he
    refine decide_eq_true ?_
    intro hcor
    apply hnc
    rw [← hcor]
    rcases List.mem_map.mp he with ⟨c', hc', heq⟩
    have : c' = e.1 := congrArg Prod.fst heq
    rw [← this]
    exact hc'
  simp only [solveEasy]
  rw [if_neg h1, if_neg (by rw [hplen, hall]; omega), hfind, hrest]
  simp only [Option.isSome_none, Bool.false_eq_true, if_false]
  rw [if_pos (by rw [hplen, hall])]
  rw [hplen, hall]
  norm_num

theorem solveEasy_allSingleton_correct (g : Word) (guesses answers : List Word)
    (depth : Nat) (hn : 1 < answers.length) (hd : 1 ≤ depth)
    (hc : CORRECT ∈ wmCodes g answers)
    (hall : (wmCodes g answers).length = answers.length)
    (hgne : guesses ≠ []) :
    solveEasy g guesses answers depth = some (2 * answers.length - 1) := by
  rcases depth with _ | d
  · omega
  have h1 : ¬ answers.length = 1 := by omega
  have hplen : (partitionD g answers).length = (wmCodes g answers).length := by
    rw [partitionD, List.length_map]
  have hfind : pfind (partitionD g answers) CORRECT = some (wmBucket g answers CORRECT) := by
    rw [pfind_partitionD, if_pos hc]
  have hnodup : (wmCodes g answers).Nodup := by
    rw [wmCodes]; exact List.nodup_dedup _
  have hrestlen : ((partitionD g answers).filter
      (fun e => decide (e.1 ≠ CORRECT))).length = answers.length - 1 := by
    rw [restFilter_eq, List.length_map]
    have h := nodup_filter_ne_length (wmCodes g answers) CORRECT hnodup hc
    rw [h, hall]
  simp only [solveEasy]
  rw [if_neg h1, if_neg (by rw [hplen, hall]; omega), hfind]
  simp only [Option.isSome_some, if_true]
  rw [if_neg (by rw [hrestlen]; omega)]
  have hfold := tryFoldOpt_add_two
    (((partitionD g answers).filter (fun e => decide (e.1 ≠ CORRECT))).map (fun e => e.2))
    (fun total dict =>
      parProcess guesses (total + dict.length) (fun g2 => solveEasy g2 guesses dict d))
    (by
      intro acc b hb
      rcases List.mem_map.mp hb with ⟨e, he, hbe⟩
      have hlen1 : e.2.length = 1 :=
        partition_buckets_len_one g answers hall e (List.mem_of_mem_filter he)
      have hb1 : b.length = 1 := by rw [← hbe]; exact hlen1
      show parProcess guesses (acc + b.length) (fun g2 => solveEasy g2 guesses b d) =
        some (acc + 2)
      rw [hb1]
      rw [parProcess_const_one guesses (acc + 1)
        (fun g2 => solveEasy g2 guesses b d)
        (fun g2 _ => solveEasy_singleton g2 guesses b d hb1) hgne]) 1
  rw [hfold, List.length_map, hrestlen]
  congr 1
  omega

theorem solveHard_allSingleton_noCorrect (g : Word) (guesses answers : List Word)
    (depth : Nat) (hn : 1 < answers.length) (hd : 1 ≤ depth)
    (hnc : CORRECT ∉ wmCodes g answers)
    (hall : (wmCodes g answers).length = answers.length) :
    solveHard g guesses answers depth = some (2 * answers.length) := by
  rcases depth with _ | d
  · omega
  have h1 : ¬ answers.length = 1 := by omega
  have hplen : (partitionD g answers).length = (wmCodes g answers).length := by
    rw [partitionD, List.length_map]
  have hfind : pfind (partitionD g answers) CORRECT = none := by
    rw [pfind_partitionD, if_neg hnc]
  have hrest : (partitionD g answers).filter (fun e => decide (e.1 ≠ CORRECT)) =
      partitionD g answers := by
    rw [List.filter_eq_self]
    intro e he
    refine decide_eq_true ?_
    intro hcor
    apply hnc
    rw [← hcor]
    rcases List.mem_map.mp he with ⟨c', hc', heq⟩
    have : c' = e.1 := congrArg Prod.fst heq
    rw [← this]
    exact hc'
  simp only [solveHard]
  rw [if_neg h1, if_neg (by rw [hplen, hall]; omega), hfind, hrest]
  simp only [Option.isSome_none, Bool.false_eq_true, if_false]
  rw [if_pos (by rw [hplen, hall])]
  rw [hplen, hall]
  norm_num

theorem solveHard_allSingleton_correct (g : Word) (guesses answers : List Word)
    (depth : Nat) (hn : 1 < answers.length) (hd : 1 ≤ depth)
    (hc : CORRECT ∈ wmCodes g answers)
    (hall : (wmCodes g answers).length = answers.length)
    (hpool : ∀ c ∈ wmCodes g answers, c ≠ CORRECT → wmBucket g guesses c ≠ []) :
    solveHard g guesses answers depth = some (2 * answers.length - 1) := by
  rcases depth with _ | d
  · omega
  have h1 : ¬ answers.length = 1 := by omega
  have hplen : (partitionD g answers).length = (wmCodes g answers).length := by
    rw [partitionD, List.length_map]
  have hfind : pfind (partitionD g answers) CORRECT = some (wmBucket g answers CORRECT) := by
    rw [pfind_partitionD, if_pos hc]
  have hnodup : (wmCodes g answers).Nodup := by
    rw [wmCodes]; exact List.nodup_dedup _
  have hrestlen : ((partitionD g answers).filter
      (fun e => decide (e.1 ≠ CORRECT))).length = answers.length - 1 := by
    rw [restFilter_eq, List.length_map]
    have h := nodup_filter_ne_length (wmCodes g answers) CORRECT hnodup hc
    rw [h, hall]
  simp only [solveHard]
  rw [if_neg h1, if_neg (by rw [hplen, hall]; omega), hfind]
  simp only [Option.isSome_some, if_true]
  rw [if_neg (by rw [hrestlen]; omega)]
  have hfold := tryFoldOptP_add_two
    ((partitionD g answers).filter (fun e => decide (e.1 ≠ CORRECT)))
    (fun total e =>
      match pfind (partitionD g guesses) e.1 with
      | none => none
      | some gs2 => parProcess gs2 (total + e.2.length) (fun g2 => solveEasy g2 gs2 e.2 d))
    (by
      intro acc e he
      have hemem := List.mem_of_mem_filter he
      have hene : e.1 ≠ CORRECT := by
        have := (List.mem_filter.mp he).2
        exact of_decide_eq_true this
      have hecode : e.1 ∈ wmCodes g answers := by
        rcases List.mem_map.mp hemem with ⟨c', hc', heq⟩
        have : c' = e.1 := congrArg Prod.fst heq
        rw [← this]
        exact hc'
      have hbne : wmBucket g guesses e.1 ≠ [] := hpool e.1 hecode hene
      have hgfind : pfind (partitionD g guesses) e.1 =
          some (wmBucket g guesses e.1) := by
        rw [pfind_partitionD, if_pos (bucket_ne_nil_code_mem g guesses e.1 hbne)]
      have hlen1 : e.2.length = 1 := partition_buckets_len_one g answers hall e hemem
      show (match pfind (partitionD g guesses) e.1 with
        | none => none
        | some gs2 => parProcess gs2 (acc + e.2.length) (fun g2 => solveEasy g2 gs2 e.2 d)) =
          some (acc + 2)
      rw [hgfind]
      show parProcess (wmBucket g guesses e.1) (acc + e.2.length)
        (fun g2 => solveEasy g2 (wmBucket g guesses e.1) e.2 d) = some (acc + 2)
      rw [hlen1]
      rw [parProcess_const_one _ (acc + 1) _
        (fun g2 _ => solveEasy_singleton g2 _ e.2 d hlen1) hbne]) 1
  rw [hfold, hrestlen]
  congr 1
  omega

theorem solveHardLimited_allSingleton (g : Word) (dict : List Word) (depth : Nat)
    (hn : 1 < dict.length) (hd : 1 ≤ depth)
    (hall : (wmCodes g dict).length = dict.length) :
    solveHardLimited g dict depth = some (2 * dict.length - 1) := by
  rcases depth with _ | d
  · omega
  have h1 : ¬ dict.length = 1 := by omega
  have hplen : (partitionD g dict).length = (wmCodes g dict).length := by
    rw [partitionD, List.length_map]
  simp only [solveHardLimited]
  rw [if_neg h1, if_pos (by rw [hplen, hall]), hplen, hall]

/-- C5 (corrected): in the batch cost functions, for answer sets with more
than one element and positive remaining depth, the `Correct` bucket (a
singleton) is indeed removed and `initialCredit` is 1 exactly when it was
present — but when every remaining bucket is a singleton the returned
total is `2 * bucketCount + initialCredit` (each remaining candidate
costs the opening guess plus one finishing guess, and the corrected
candidate costs the single opening guess), not
`2 * bucketCount - initialCredit` as claimed: the claimed formula
undercounts by 2 whenever the guess is itself a possible answer.
Moreover in `solve_easy`/`solve_hard` the literal short-circuit only
fires when `Correct` is absent (it compares the post-removal bucket count
with the full answer count); with `Correct` present the same total is
reached through the general fold, each singleton bucket contributing 2.
`solve_hard_limited` short-circuits before the removal and always returns
`2 * answers.length - 1` (equal to `2 * bucketCount + 1` there, since its
fixed opening guess is drawn from the dictionary).  Hypotheses: every
bucket a singleton (as many distinct feedback codes as answers), a
non-empty guess pool, and in hard mode a non-empty restricted guess pool
for every non-`Correct` bucket. -/
theorem C5_amended (g : Word) (guesses answers : List Word) (depth : Nat)
    (hn : 1 < answers.length) (hd : 1 ≤ depth)
    (hall : (wmCodes g answers).length = answers.length)
    (hgne : guesses ≠ [])
    (hpool : ∀ c ∈ wmCodes g answers, c ≠ CORRECT → wmBucket g guesses c ≠ []) :
    solveEasy g guesses answers depth =
      some (2 * (answers.length - (if CORRECT ∈ wmCodes g answers then 1 else 0)) +
        (if CORRECT ∈ wmCodes g answers then 1 else 0)) ∧
    solveHard g guesses answers depth =
      some (2 * (answers.length - (if CORRECT ∈ wmCodes g answers then 1 else 0)) +
        (if CORRECT ∈ wmCodes g answers then 1 else 0)) ∧
    solveHardLimited g answers depth = some (2 * answers.length - 1) := by
  by_cases hc : CORRECT ∈ wmCodes g answers
  · rw [if_pos hc]
    refine ⟨?_, ?_, solveHardLimited_allSingleton g answers depth hn hd hall⟩
    · rw [solveEasy_allSingleton_correct g guesses answers depth hn hd hc hall hgne]
      congr 1
      omega
    · rw [solveHard_allSingleton_correct g guesses answers depth hn hd hc hall hpool]
      congr 1
      omega
  · rw [if_neg hc]
    exact ⟨solveEasy_allSingleton_noCorrect g guesses answers depth hn hd hc hall,
      solveHard_allSingleton_noCorrect g guesses answers depth hn hd hc hall,
      solveHardLimited_allSingleton g answers depth hn hd hall⟩

/-- C5 counterexample to the claimed formula: guess `aaaaa` over the
answer set `{aaaaa, bbbbb}` with both pools equal and depth 1.  The
partition has two singleton buckets, the `Correct` bucket is removed, so
`bucketCount = 1` and `initialCredit = 1`: the claim predicts
`2 * 1 - 1 = 1`, yet all three batch functions return 3
(`aaaaa` costs 1 guess, `bbbbb` costs `aaaaa` plus a finishing guess). -/
theorem C5_counterexample :
    solveEasy [97, 97, 97, 97, 97]
        [[97, 97, 97, 97, 97], [98, 98, 98, 98, 98]]
        [[97, 97, 97, 97, 97], [98, 98, 98, 98, 98]] 1 = some 3 ∧
    solveHard [97, 97, 97, 97, 97]
        [[97, 97, 97, 97, 97], [98, 98, 98, 98, 98]]
        [[97, 97, 97, 97, 97], [98, 98, 98, 98, 98]] 1 = some 3 ∧
    solveHardLimited [97, 97, 97, 97, 97]
        [[97, 97, 97, 97, 97], [98, 98, 98, 98, 98]] 1 = some 3 :=
  ⟨rfl, rfl, rfl⟩

/-- Witness for `C5_amended` at the run of `C5_counterexample`. -/
theorem C5_amended_witness :
    solveEasy [97, 97, 97, 97, 97]
        [[97, 97, 97, 97, 97], [98, 98, 98, 98, 98]]
        [[97, 97, 97, 97, 97], [98, 98, 98, 98, 98]] 1 = some 3 ∧
    solveHard [97, 97, 97, 97, 97]
        [[97, 97, 97, 97, 97], [98, 98, 98, 98, 98]]
        [[97, 97, 97, 97, 97], [98, 98, 98, 98, 98]] 1 = some 3 ∧
    solveHardLimited [97, 97, 97, 97, 97]
        [[97, 97, 97, 97, 97], [98, 98, 98, 98, 98]] 1 = some 3 := by
  have h := C5_amended [97, 97, 97, 97, 97]
    [[97, 97, 97, 97, 97], [98, 98, 98, 98, 98]]
    [[97, 97, 97, 97, 97], [98, 98, 98, 98, 98]] 1
    (by decide) (by decide) (by decide) (by decide) (by decide)
  refine ⟨?_, ?_, ?_⟩
  · rw [h.1]; decide
  · rw [h.2.1]; decide
  · rw [h.2.2]; decide

/-! ### Claim C6: hard-mode guess-pool restriction -/

theorem wmBucket_eq_nil_of_not_mem (g : Word) (d : List Word) (c : Nat)
    (hc : c ∉ wmCodes g d) : wmBucket g d c = [] := by
  rw [wmBucket, List.filter_eq_nil_iff]
  intro w hw hdec
  apply hc
  rw [wmCodes, List.mem_dedup]
  exact List.mem_map.mpr ⟨w, hw, of_decide_eq_true hdec⟩

theorem hard_pool_match (g : Word) (guesses : List Word) (c : Nat)
    (F : List Word → Option Nat) :
    (match pfind (partitionD g guesses) c with
      | none => none
      | some gs2 => F gs2) =
    (match guesses.filter (fun x => decide (wmFrom g x = c)) with
      | [] => none
      | gs2 => F gs2) := by
  rw [pfind_partitionD]
  by_cases hc : c ∈ wmCodes g guesses
  · rw [if_pos hc]
    have hne : wmBucket g guesses c ≠ [] :=
      partition_bucket_ne_nil g guesses c (wmBucket g guesses c)
        (List.mem_map.mpr ⟨c, hc, rfl⟩)
    show F (wmBucket g guesses c) = _
    cases hL : wmBucket g guesses c with
    | nil => exact absurd hL hne
    | cons a as =>
      rw [show guesses.filter (fun x => decide (wmFrom g x = c)) = a :: as from hL]
  · rw [if_neg hc]
    show (none : Option Nat) = _
    rw [show guesses.filter (fun x => decide (wmFrom g x = c)) = [] from
      wmBucket_eq_nil_of_not_mem g guesses c hc]

theorem tryFoldOptP_congr (f f2 : Nat → (Nat × List Word) → Option Nat)
    (h : ∀ acc e, f acc e = f2 acc e) :
    ∀ (l : List (Nat × List Word)) (acc : Nat),
      tryFoldOptP f l acc = tryFoldOptP f2 l acc := by
  intro l
  induction l with
  | nil => intro acc; rfl
  | cons e rest ih =>
    intro acc
    show (match f acc e with
      | none => none
      | some a => tryFoldOptP f rest a) = (match f2 acc e with
      | none => none
      | some a => tryFoldOptP f2 rest a)
    rw [h acc e]
    cases f2 acc e with
    | none => rfl
    | some a => exact ih a

/-- C6 (confirmed): pool selection for the recursive calls.  In easy
mode the guess pool is passed down unchanged; in hard mode with the two
pools pointer-equal (`same`, the only sense in which `main` ever passes
"the same set") the answer bucket itself becomes the next pool; in hard
mode with distinct pools the next pool for the bucket keyed `c` is
exactly the set of members of the current guess pool whose feedback
against the candidate word is `c`.  The secondary partition of the guess
pool is computed once, before the fold over the candidate's buckets, and
reused across them.  In `solve_hard` the restriction lasts one ply: each
bucket recurses through `solve_easy` over the once-restricted pool
`gs2`, and `solve_easy` hands its guess pool down unchanged at every
level, so deeper levels are never re-restricted against later
feedback. -/
theorem C6_pool_restriction :
    (∀ (same : Bool) (guesses : List Word) (partitions : List (Nat × List Word))
        (c : Nat) (dict : List Word),
      nextPool false same guesses partitions c dict = guesses) ∧
    (∀ (guesses : List Word) (partitions : List (Nat × List Word))
        (c : Nat) (dict : List Word),
      nextPool true true guesses partitions c dict = dict) ∧
    (∀ (w : Word) (guesses : List Word) (c : Nat) (dict : List Word),
      nextPool true false guesses (partitionD w guesses) c dict =
        guesses.filter (fun x => decide (wmFrom w x = c))) ∧
    (∀ (recur : List Word → List Word → Bool → Option Solution)
        (gi : GuessInfo) (guesses : List Word),
      slowSolutionF recur gi guesses true false =
        slowFoldF recur true false guesses (partitionD gi.word guesses)
          gi.partition (Solution.mk gi.word 0 [])) ∧
    (∀ (g : Word) (guesses answers : List Word) (d : Nat),
      ¬ answers.length = 1 →
      ¬ (partitionD g answers).length = 1 →
      ¬ ((partitionD g answers).filter (fun e => decide (e.1 ≠ CORRECT))).length
          = answers.length →
      solveHard g guesses answers (d + 1) =
        tryFoldOptP
          (fun total e =>
            match guesses.filter (fun x => decide (wmFrom g x = e.1)) with
            | [] => none
            | gs2 => parProcess gs2 (total + e.2.length)
                (fun g2 => solveEasy g2 gs2 e.2 d))
          ((partitionD g answers).filter (fun e => decide (e.1 ≠ CORRECT)))
          (if (pfind (partitionD g answers) CORRECT).isSome then 1 else 0)) ∧
    (∀ (g : Word) (guesses answers : List Word) (d : Nat),
      ¬ answers.length = 1 →
      ¬ (partitionD g answers).length = 1 →
      ¬ ((partitionD g answers).filter (fun e => decide (e.1 ≠ CORRECT))).length
          = answers.length →
      solveEasy g guesses answers (d + 1) =
        tryFoldOpt
          (fun total dict => parProcess guesses (total + dict.length)
            (fun g2 => solveEasy g2 guesses dict d))
          (((partitionD g answers).filter (fun e => decide (e.1 ≠ CORRECT))).map
            (fun e => e.2))
          (if (pfind (partitionD g answers) CORRECT).isSome then 1 else 0)) := by
  refine ⟨fun same guesses partitions c dict => rfl,
    fun guesses partitions c dict => rfl, ?_,
    fun recur gi guesses => rfl, ?_, ?_⟩
  · intro w guesses c dict
    show (pfind (partitionD w guesses) c).getD [] = _
    rw [pfind_partitionD]
    by_cases hc : c ∈ wmCodes w guesses
    · rw [if_pos hc]; rfl
    · rw [if_neg hc]
      show ([] : List Word) = _
      exact (wmBucket_eq_nil_of_not_mem w guesses c hc).symm
  · intro g guesses answers d h1 h2 h3
    simp only [solveHard]
    rw [if_neg h1, if_neg h2, if_neg h3]
    exact tryFoldOptP_congr _ _
      (fun acc e => hard_pool_match g guesses e.1
        (fun gs2 => parProcess gs2 (acc + e.2.length)
          (fun g2 => solveEasy g2 gs2 e.2 d))) _ _
  · intro g guesses answers d h1 h2 h3
    simp only [solveEasy]
    rw [if_neg h1, if_neg h2, if_neg h3]

/-- Witness for `C6_pool_restriction`: the guess `abcde` over the pool
`{abcde, abcdf, fghij}` in each mode; the hard-mode batch run restricts
each bucket's pool to its single consistent guess and totals 5. -/
theorem C6_pool_restriction_witness :
    nextPool false false [[97, 98, 99, 100, 101]] [] 0 [] = [[97, 98, 99, 100, 101]] ∧
    nextPool true true [[97, 98, 99, 100, 101]] [] 0 [[102, 103, 104, 105, 106]] =
      [[102, 103, 104, 105, 106]] ∧
    nextPool true false [[97, 98, 99, 100, 101], [102, 103, 104, 105, 106]]
        (partitionD [97, 98, 99, 100, 101]
          [[97, 98, 99, 100, 101], [102, 103, 104, 105, 106]]) CORRECT [] =
      [[97, 98, 99, 100, 101]] ∧
    solveHard [97, 98, 99, 100, 101]
        [[97, 98, 99, 100, 101], [97, 98, 99, 100, 102], [102, 103, 104, 105, 106]]
        [[97, 98, 99, 100, 101], [97, 98, 99, 100, 102], [102, 103, 104, 105, 106]]
        1 = some 5 := by
  have h := C6_pool_restriction
  refine ⟨h.1 false _ [] 0 [], h.2.1 _ [] 0 _, ?_, ?_⟩
  · rw [h.2.2.1 [97, 98, 99, 100, 101] _ CORRECT []]
    decide
  · rw [h.2.2.2.2.1 [97, 98, 99, 100, 101] _ _ 0 (by decide) (by decide) (by decide)]
    decide

/-! ### Claim C8: size dominates the leaf count

`Solution.leaves` counts the leaf nodes of a decision tree (a node with
no children is one leaf); `Solution.okB` checks `leaves ≤ size` at every
node of the tree. -/

mutual
def Solution.leaves : Solution → Nat
  | ⟨_, _, l⟩ => max 1 (leavesL l)
def leavesL : List (Nat × Solution) → Nat
  | [] => 0
  | e :: rest => e.2.leaves + leavesL rest
end

mutual
def Solution.okB : Solution → Bool
  | ⟨g, s, l⟩ => decide (Solution.leaves (Solution.mk g s l) ≤ s) && okL l
def okL : List (Nat × Solution) → Bool
  | [] => true
  | e :: rest => e.2.okB && okL rest
end

theorem leaves_pos (s : Solution) : 1 ≤ s.leaves := by
  cases s with
  | mk g sz l => exact le_max_left 1 (leavesL l)

theorem leaf_okB (w : Word) : (Solution.mk w 1 []).okB = true := by
  show (decide (Solution.leaves (Solution.mk w 1 []) ≤ 1) && okL []) = true
  rw [Bool.and_eq_true, decide_eq_true_eq]
  exact ⟨by show max 1 (leavesL []) ≤ 1; simp [leavesL], rfl⟩

theorem leavesL_append : ∀ (l1 l2 : List (Nat × Solution)),
    leavesL (l1 ++ l2) = leavesL l1 + leavesL l2 := by
  intro l1 l2
  induction l1 with
  | nil => simp [leavesL]
  | cons e rest ih =>
    show e.2.leaves + leavesL (rest ++ l2) = e.2.leaves + leavesL rest + leavesL l2
    rw [ih]
    ring

theorem okL_append : ∀ (l1 l2 : List (Nat × Solution)),
    okL (l1 ++ l2) = (okL l1 && okL l2) := by
  intro l1 l2
  induction l1 with
  | nil => simp [okL]
  | cons e rest ih =>
    show (e.2.okB && okL (rest ++ l2)) = ((e.2.okB && okL rest) && okL l2)
    rw [ih, Bool.and_assoc]

theorem okB_mk_iff (g : Word) (sz : Nat) (l : List (Nat × Solution)) :
    (Solution.mk g sz l).okB = true ↔
      (Solution.mk g sz l).leaves ≤ sz ∧ okL l = true := by
  show (decide _ && okL l) = true ↔ _
  rw [Bool.and_eq_true, decide_eq_true_eq]

/-- Pass 2 only ever raises a base-3 digit from 0 to 1: whatever the
availability accumulator holds, the set of digit-2 (Correct) positions
of the packed match value is unchanged. -/
theorem p2go_digit_bounds (g : Word) : ∀ (is : List Nat) (D : List Nat) (c : Nat),
    (∀ x ∈ D, x < 3) → (∀ i ∈ is, i < D.length) →
    ∃ E, (p2go g is (encB 3 D, c)).1 = encB 3 E ∧ E.length = D.length ∧
      (∀ x ∈ E, x < 3) ∧ (∀ j, E.getD j 0 = 2 ↔ D.getD j 0 = 2) := by
  intro is
  induction is with
  | nil =>
    intro D c hD _
    exact ⟨D, rfl, rfl, hD, fun j => Iff.rfl⟩
  | cons i is ih =>
    intro D c hD his
    have hi : i < D.length := his i (by simp)
    have hdig : encB 3 D / 3 ^ i % 3 = D.getD i 0 := encB_div_pow_mod 3 i D hD
    show ∃ E, (p2go g is (p2step g (encB 3 D, c) i)).1 = encB 3 E ∧ _
    by_cases hz : D.getD i 0 = 0
    · by_cases hav : (c >>> (2 * (g.getD i 0 - 97))) &&& 3 ≠ 0
      · have hstep : p2step g (encB 3 D, c) i =
            (encB 3 (bump D i 1), c - (1 <<< (2 * (g.getD i 0 - 97)))) := by
          simp only [p2step]
          rw [hdig, if_pos hz, if_pos hav, bump, encB_set_add 3 i D 1 hi, one_mul]
        rw [hstep]
        have hb : ∀ x ∈ bump D i 1, x < 3 := mem_set_bound hD (by omega)
        have hlen : (bump D i 1).length = D.length := by simp [bump]
        obtain ⟨E, hE, hElen, hEb, hEdig⟩ :=
          ih (bump D i 1) (c - (1 <<< (2 * (g.getD i 0 - 97)))) hb
            (fun j hj => by rw [hlen]; exact his j (by simp [hj]))
        refine ⟨E, hE, hElen.trans hlen, hEb, fun j => (hEdig j).trans ?_⟩
        by_cases hij : j = i
        · subst hij
          rw [bump, getD_set_self j D _ hi, hz]
          omega
        · rw [bump, getD_set_ne i j D _ (fun h => hij h.symm)]
      · have hstep : p2step g (encB 3 D, c) i = (encB 3 D, c) := by
          simp only [p2step]
          rw [hdig, if_pos hz, if_neg hav]
        rw [hstep]
        exact ih D c hD (fun j hj => his j (by simp [hj]))
    · have hstep : p2step g (encB 3 D, c) i = (encB 3 D, c) := by
        simp only [p2step]
        rw [hdig, if_neg hz]
      rw [hstep]
      exact ih D c hD (fun j hj => his j (by simp [hj]))

/-- The packed match value after pass 1 is a 5-digit base-3 numeral
whose digit at `j` is 2 exactly when position `j` matched. -/
theorem pass1_digits (g a : Word) (ha : ∀ c ∈ a, 97 ≤ c ∧ c ≤ 122) :
    ∃ D1 c1, pass1 g a = (encB 3 D1, c1) ∧ D1.length = 5 ∧ (∀ x ∈ D1, x < 3) ∧
      ∀ j, (D1.getD j 0 = 2 ↔ j < 5 ∧ g.getD j 0 = a.getD j 0) := by
  have hC : ∀ i ∈ List.range 5, g.getD i 0 ≠ a.getD i 0 →
      a.getD i 0 - 97 < (List.replicate 26 0).length := by
    intro i _ _
    rw [List.length_replicate]
    by_cases hia : i < a.length
    · have := ha (a.getD i 0) (getD_mem a i hia)
      omega
    · rw [List.getD_eq_default _ _ (by omega)]
      omega
  have hD : ∀ i ∈ List.range 5, i < (List.replicate 5 (0 : Nat)).length := by
    intro i hi
    rw [List.length_replicate]
    exact List.mem_range.mp hi
  have h0 : ((0 : Nat), (0 : Nat)) =
      (encB 3 (List.replicate 5 0), encB 4 (List.replicate 26 0)) := by
    rw [encB_replicate, encB_replicate]
  have hcorr := p1_corr g a (List.range 5) (List.replicate 5 0) (List.replicate 26 0) hD hC
  refine ⟨(p1goL g a (List.range 5) (List.replicate 5 0, List.replicate 26 0)).1,
    encB 4 (p1goL g a (List.range 5) (List.replicate 5 0, List.replicate 26 0)).2,
    by rw [pass1, h0]; exact hcorr, ?_, ?_, ?_⟩
  · rw [(p1goL_len g a (List.range 5) _).1, List.length_replicate]
  · intro x hx
    obtain ⟨j, hj, hjx⟩ := mem_exists_getD _ x hx
    have hjlen : j < 5 := by
      rw [(p1goL_len g a (List.range 5) _).1, List.length_replicate] at hj
      exact hj
    rw [← hjx, p1goL_digits g a (List.range 5) _ _ j
      (by rw [List.length_replicate]; exact hjlen) (List.nodup_range 5),
      getD_replicate]
    split <;> omega
  · intro j
    by_cases hj5 : j < 5
    · rw [p1goL_digits g a (List.range 5) _ _ j
        (by rw [List.length_replicate]; exact hj5) (List.nodup_range 5),
        getD_replicate]
      constructor
      · intro h
        refine ⟨hj5, ?_⟩
        by_cases hc : j ∈ List.range 5 ∧ g.getD j 0 = a.getD j 0
        · exact hc.2
        · rw [if_neg hc] at h
          omega
      · intro h
        rw [if_pos ⟨List.mem_range.mpr hj5, h.2⟩]
    · rw [List.getD_eq_default _ _ (by
        rw [(p1goL_len g a (List.range 5) _).1, List.length_replicate]
        omega)]
      constructor
      · omega
      · intro h
        exact absurd h.1 hj5

/-- For well-formed 5-letter words, the feedback is `CORRECT` exactly
for the answer equal to the guess. -/
theorem wmFrom_eq_CORRECT_iff (g a : Word) (hg : wordWF g) (ha : wordWF a) :
    wmFrom g a = CORRECT ↔ g = a := by
  constructor
  · intro h
    obtain ⟨D1, c1, hp1, hlen1, hb1, hdig1⟩ := pass1_digits g a ha.2
    obtain ⟨E, hE, hElen, hEb, hEdig⟩ := p2go_digit_bounds g (List.range 5) D1 c1 hb1
      (fun i hi => by rw [hlen1]; exact List.mem_range.mp hi)
    have hwm : encB 3 E = 242 := by
      have heq : wmFrom g a = encB 3 E := by rw [wmFrom, hp1, hE]
      rw [← heq, h]
      rfl
    have h242 : ∀ j < 5, (242 : Nat) / 3 ^ j % 3 = 2 := by decide
    have hgets : ∀ j, j < 5 → g.getD j 0 = a.getD j 0 := by
      intro j hj
      have hEj : E.getD j 0 = 2 := by
        rw [← encB_div_pow_mod 3 j E hEb, hwm]
        exact h242 j hj
      exact ((hdig1 j).mp ((hEdig j).mp hEj)).2
    have hglen : g.length = 5 := hg.1
    have halen : a.length = 5 := ha.1
    apply List.ext_getElem (by omega)
    intro j hj1 hj2
    have := hgets j (by omega)
    rwa [List.getD_eq_getElem g 0 hj1, List.getD_eq_getElem a 0 hj2] at this
  · intro h
    subst h
    exact wmFrom_self g

theorem nodup_const_len (l : List Word) (v : Word) (hnd : l.Nodup)
    (hall : ∀ x ∈ l, x = v) : l.length ≤ 1 := by
  match l with
  | [] => simp
  | [x] => simp
  | x :: y :: rest =>
    exfalso
    rcases List.nodup_cons.mp hnd with ⟨hx, _⟩
    apply hx
    have hxy : x = y := (hall x (by simp)).trans (hall y (by simp)).symm
    rw [hxy]
    exact List.mem_cons_self _ _

/-- With well-formed, duplicate-free answers, the `Correct` bucket holds
at most the guess itself. -/
theorem correct_bucket_len (g : Word) (answers : List Word)
    (hg : wordWF g) (hans : ∀ w ∈ answers, wordWF w) (hnd : answers.Nodup)
    (hc : wmBucket g answers CORRECT ≠ []) :
    (wmBucket g answers CORRECT).length = 1 := by
  have hall : ∀ w ∈ wmBucket g answers CORRECT, w = g := by
    intro w hw
    rcases List.mem_filter.mp hw with ⟨hwa, hwc⟩
    exact ((wmFrom_eq_CORRECT_iff g w hg (hans w hwa)).mp (of_decide_eq_true hwc)).symm
  have hle := nodup_const_len _ g (List.Nodup.filter _ hnd) hall
  have hpos := List.length_pos.mpr hc
  rw [wmBucket] at hpos ⊢
  omega

theorem hswap_length (h : List GuessInfo) (i j : Nat) : (hswap h i j).length = h.length := by
  simp [hswap]

theorem hswap_mem (h : List GuessInfo) (i j : Nat) (hi : i < h.length) (hj : j < h.length) :
    ∀ x ∈ hswap h i j, x ∈ h := by
  intro x hx
  rcases List.mem_or_eq_of_mem_set hx with hx1 | hx1
  · rcases List.mem_or_eq_of_mem_set hx1 with hx2 | hx2
    · exact hx2
    · rw [hx2, List.getD_eq_getElem h _ hj]
      exact List.getElem_mem hj
  · rw [hx1, List.getD_eq_getElem h _ hi]
    exact List.getElem_mem hi

theorem siftUpF_mem : ∀ (fuel : Nat) (h : List GuessInfo) (pos : Nat), pos < h.length →
    ∀ x ∈ siftUpF fuel h pos, x ∈ h := by
  intro fuel
  induction fuel with
  | zero => intro h pos _ x hx; exact hx
  | succ fuel ih =>
    intro h pos hpos x hx
    simp only [siftUpF] at hx
    by_cases h0 : pos = 0
    · rw [if_pos h0] at hx; exact hx
    · rw [if_neg h0] at hx
      by_cases hgt : guessGT (h.getD pos default) (h.getD ((pos - 1) / 2) default) = true
      · rw [if_pos hgt] at hx
        have hpar : (pos - 1) / 2 < h.length := by
          have : (pos - 1) / 2 ≤ pos - 1 := Nat.div_le_self _ _
          omega
        exact hswap_mem h pos _ hpos hpar x
          (ih (hswap h pos ((pos - 1) / 2)) ((pos - 1) / 2)
            (by rw [hswap_length]; exact hpar) x hx)
      · rw [if_neg hgt] at hx; exact hx

theorem heapPush_mem (h : List GuessInfo) (y : GuessInfo) :
    ∀ x ∈ heapPush h y, x ∈ h ∨ x = y := by
  intro x hx
  have := siftUpF_mem (h.length + 1) (h ++ [y]) h.length (by simp) x hx
  rcases List.mem_append.mp this with h1 | h1
  · exact Or.inl h1
  · exact Or.inr (List.mem_singleton.mp h1)

theorem siftDownF_mem : ∀ (fuel : Nat) (h : List GuessInfo) (pos : Nat),
    ∀ x ∈ siftDownF fuel h pos, x ∈ h := by
  intro fuel
  induction fuel with
  | zero => intro h pos x hx; exact hx
  | succ fuel ih =>
    intro h pos x hx
    simp only [siftDownF] at hx
    by_cases hl : 2 * pos + 1 < h.length
    · rw [if_pos hl] at hx
      have hpos : pos < h.length := by omega
      by_cases hr : 2 * pos + 2 < h.length ∧
          guessGT (h.getD (2 * pos + 2) default) (h.getD (2 * pos + 1) default) = true
      · rw [if_pos hr] at hx
        by_cases hgt : guessGT (h.getD (2 * pos + 2) default) (h.getD pos default) = true
        · rw [if_pos hgt] at hx
          exact hswap_mem h pos _ hpos (by omega) x
            (ih (hswap h pos (2 * pos + 2)) (2 * pos + 2) x hx)
        · rw [if_neg hgt] at hx; exact hx
      · rw [if_neg hr] at hx
        by_cases hgt : guessGT (h.getD (2 * pos + 1) default) (h.getD pos default) = true
        · rw [if_pos hgt] at hx
          exact hswap_mem h pos _ hpos hl x
            (ih (hswap h pos (2 * pos + 1)) (2 * pos + 1) x hx)
        · rw [if_neg hgt] at hx; exact hx
    · rw [if_neg hl] at hx; exact hx

theorem getLastD_mem : ∀ (l : List GuessInfo) (d : GuessInfo), l ≠ [] → l.getLastD d ∈ l := by
  intro l
  induction l with
  | nil => intro d h; exact absurd rfl h
  | cons a as ih =>
    intro d _
    rw [List.getLastD_cons]
    cases as with
    | nil => simp [List.getLastD]
    | cons b bs => exact List.mem_cons_of_mem _ (ih a (by simp))

theorem heapPop_mem (h : List GuessInfo) : ∀ x ∈ heapPop h, x ∈ h := by
  intro x hx
  simp only [heapPop] at hx
  by_cases hlen : h.length ≤ 1
  · rw [if_pos hlen] at hx; exact absurd hx (List.not_mem_nil x)
  · rw [if_neg hlen] at hx
    have hm := siftDownF_mem h.length _ 0 x hx
    rcases List.mem_or_eq_of_mem_set hm with h1 | h1
    · exact List.dropLast_subset h h1
    · rw [h1]
      exact getLastD_mem h default (by intro h0; rw [h0] at hlen; simp at hlen)

theorem scanG_inl (answers : List Word) (breadth dep : Nat) :
    ∀ (gs : List Word) (heap : List GuessInfo) (s : Solution),
      scanG answers breadth dep gs heap = Sum.inl s →
      ∃ g ∈ gs, fastSolution (mkGuess g answers) (dep - 1) = some s := by
  intro gs
  induction gs with
  | nil => intro heap s hsc; exact absurd hsc (by simp [scanG])
  | cons g gs ih =>
    intro heap s hsc
    simp only [scanG] at hsc
    split at hsc
    · obtain ⟨g2, hg2, hf⟩ := ih _ s hsc
      exact ⟨g2, by simp [hg2], hf⟩
    · split at hsc
      · rename_i s' heq
        rw [Sum.inl.injEq] at hsc
        exact ⟨g, by simp, by rw [heq, hsc]⟩
      · rename_i heq
        split at hsc
        · obtain ⟨g2, hg2, hf⟩ := ih _ s hsc
          exact ⟨g2, by simp [hg2], hf⟩
        · split at hsc
          · obtain ⟨g2, hg2, hf⟩ := ih _ s hsc
            exact ⟨g2, by simp [hg2], hf⟩
          · obtain ⟨g2, hg2, hf⟩ := ih _ s hsc
            exact ⟨g2, by simp [hg2], hf⟩

theorem scanG_inr_mem (answers : List Word) (breadth dep : Nat) (guesses0 : List Word) :
    ∀ (gs : List Word) (heap : List GuessInfo),
      (∀ g ∈ gs, g ∈ guesses0) →
      (∀ gi ∈ heap, ∃ g ∈ guesses0, gi = mkGuess g answers) →
      ∀ heap', scanG answers breadth dep gs heap = Sum.inr heap' →
      ∀ gi ∈ heap', ∃ g ∈ guesses0, gi = mkGuess g answers := by
  intro gs
  induction gs with
  | nil =>
    intro heap _ hheap heap' hsc
    have heq : heap = heap' := by
      simp only [scanG] at hsc
      exact Sum.inr.inj hsc
    rw [← heq]; exact hheap
  | cons g gs ih =>
    intro heap hgs hheap heap' hsc
    have hgsub : ∀ x ∈ gs, x ∈ guesses0 := fun x hx => hgs x (by simp [hx])
    have hg0 : g ∈ guesses0 := hgs g (by simp)
    have hpush : ∀ (hp : List GuessInfo),
        (∀ gi ∈ hp, ∃ g2 ∈ guesses0, gi = mkGuess g2 answers) →
        ∀ gi ∈ heapPush hp (mkGuess g answers), ∃ g2 ∈ guesses0, gi = mkGuess g2 answers := by
      intro hp hhp gi hgi
      rcases heapPush_mem hp _ gi hgi with h | h
      · exact hhp gi h
      · exact ⟨g, hg0, h⟩
    simp only [scanG] at hsc
    split at hsc
    · exact ih heap hgsub hheap heap' hsc
    · split at hsc
      · exact absurd hsc (by simp)
      · split at hsc
        · exact ih _ hgsub (hpush heap hheap) heap' hsc
        · split at hsc
          · exact ih _ hgsub
              (hpush (heapPop heap) (fun gi hgi => hheap gi (heapPop_mem heap gi hgi)))
              heap' hsc
          · exact ih heap hgsub hheap heap' hsc

theorem expandF_mem (recur : List Word → List Word → Bool → Option Solution)
    (hard same : Bool) (guesses : List Word) :
    ∀ (heap : List GuessInfo) (s : Solution), s ∈ expandF recur hard same guesses heap →
      ∃ gi ∈ heap, slowSolutionF recur gi guesses hard same = some s := by
  intro heap
  induction heap with
  | nil => intro s hs; exact absurd hs (List.not_mem_nil s)
  | cons gi rest ih =>
    intro s hs
    simp only [expandF] at hs
    split at hs
    · obtain ⟨gi2, h1, h2⟩ := ih s hs
      exact ⟨gi2, List.mem_cons_of_mem _ h1, h2⟩
    · rename_i s' heq
      rcases List.mem_cons.mp hs with h | h
      · exact ⟨gi, List.mem_cons_self _ _, by rw [heq, h]⟩
      · obtain ⟨gi2, h1, h2⟩ := ih s h
        exact ⟨gi2, List.mem_cons_of_mem _ h1, h2⟩

theorem solveGo_singleton (depth : Nat) (guesses answers : List Word) (breadth : Nat)
    (hard same : Bool) (h : answers.length = 1) :
    solveGo depth guesses answers breadth hard same =
      some (Solution.mk (answers.headD []) 1 []) := by
  match depth with
  | 0 => simp [solveGo, h]
  | 1 => simp [solveGo, h]
  | d + 2 => simp [solveGo, h]

theorem okB_leaves_le_size (s : Solution) (h : s.okB = true) : s.leaves ≤ s.size := by
  cases s with
  | mk g sz l => exact ((okB_mk_iff g sz l).mp h).1

theorem leaves_leaf (w : Word) : (Solution.mk w 1 []).leaves = 1 := rfl

theorem leavesL_pos : ∀ (l : List (Nat × Solution)), l ≠ [] → 1 ≤ leavesL l := by
  intro l hl
  cases l with
  | nil => exact absurd rfl hl
  | cons e rest =>
    show 1 ≤ e.2.leaves + leavesL rest
    have := leaves_pos e.2
    omega

theorem partitionD_ne_nil (g : Word) (answers : List Word) (h : answers ≠ []) :
    partitionD g answers ≠ [] := by
  rw [partitionD, wmCodes]
  intro h0
  rw [List.map_eq_nil_iff, List.dedup_eq_nil, List.map_eq_nil_iff] at h0
  exact h h0

theorem fastSolution_ok (gi : GuessInfo) (d : Nat) (s : Solution)
    (h : fastSolution gi d = some s) : s.okB = true := by
  simp only [fastSolution] at h
  split at h
  · rename_i hcond
    rw [Option.some.injEq] at h
    subst h
    rw [okB_mk_iff]
    constructor
    · show max 1 (leavesL (gi.partition.map
        (fun e => (e.1, Solution.mk (e.2.headD []) 1 [])))) ≤ _
      have hL : ∀ (p : List (Nat × List Word)),
          leavesL (p.map (fun e => (e.1, Solution.mk (e.2.headD []) 1 []))) = p.length := by
        intro p
        induction p with
        | nil => rfl
        | cons e rest ih =>
          show (Solution.mk (e.2.headD []) 1 []).leaves + _ = rest.length + 1
          rw [ih, leaves_leaf]
          omega
      rw [hL]
      have hp : gi.partition ≠ [] := by
        intro h0
        rw [h0] at hcond
        simp [pfind] at hcond
      have := List.length_pos.mpr hp
      omega
    · have hO : ∀ (p : List (Nat × List Word)),
          okL (p.map (fun e => (e.1, Solution.mk (e.2.headD []) 1 []))) = true := by
        intro p
        induction p with
        | nil => rfl
        | cons e rest ih =>
          show ((Solution.mk (e.2.headD []) 1 []).okB && _) = true
          rw [leaf_okB, ih, Bool.and_self]
      exact hO gi.partition
  · exact absurd h (by simp)

theorem slowFoldF_ok
    (recur : List Word → List Word → Bool → Option Solution)
    (hard same : Bool) (guesses : List Word) (partitions : List (Nat × List Word)) :
    ∀ (l : List (Nat × List Word)) (acc out : Solution),
      (∀ e ∈ l, ∀ sub,
        recur (nextPool hard same guesses partitions e.1 e.2) e.2 (hard && same) = some sub →
        sub.okB = true ∧ (e.1 = CORRECT → sub.leaves ≤ e.2.length)) →
      okL acc.solution = true →
      leavesL acc.solution ≤ acc.size →
      slowFoldF recur hard same guesses partitions l acc = some out →
      okL out.solution = true ∧ leavesL out.solution ≤ out.size ∧
        out.solution.length = acc.solution.length + l.length := by
  intro l
  induction l with
  | nil =>
    intro acc out _ hok hle hf
    have : acc = out := by
      simp only [slowFoldF] at hf
      exact Option.some.inj hf
    subst this
    exact ⟨hok, hle, by simp⟩
  | cons e rest ih =>
    intro acc out hrec hok hle hf
    obtain ⟨wm, dict⟩ := e
    simp only [slowFoldF] at hf
    split at hf
    · exact absurd hf (by simp)
    · rename_i sub heq
      have hsub := hrec (wm, dict) (by simp) sub heq
      have hok' : okL (acc.solution ++ [(wm, sub)]) = true := by
        rw [okL_append, hok]
        show (true && (sub.okB && okL [])) = true
        rw [hsub.1]
        rfl
      have hle' : leavesL (acc.solution ++ [(wm, sub)]) ≤
          acc.size + dict.length + (if wm ≠ CORRECT then sub.size else 0) := by
        rw [leavesL_append]
        have hsl : leavesL [(wm, sub)] = sub.leaves := by
          show sub.leaves + leavesL [] = sub.leaves
          rfl
        rw [hsl]
        by_cases hwm : wm = CORRECT
        · have hb : sub.leaves ≤ dict.length := hsub.2 hwm
          rw [if_neg (by simp [hwm])]
          omega
        · have hb := okB_leaves_le_size sub hsub.1
          rw [if_pos hwm]
          omega
      have := ih (Solution.mk acc.guess
          (acc.size + dict.length + (if wm ≠ CORRECT then sub.size else 0))
          (acc.solution ++ [(wm, sub)])) out
        (fun e2 he2 sub2 h2 => hrec e2 (by simp [he2]) sub2 h2) hok' hle' hf
      refine ⟨this.1, this.2.1, ?_⟩
      rw [this.2.2]
      show (acc.solution ++ [(wm, sub)]).length + rest.length = _
      rw [List.length_append]
      simp
      omega

theorem slowSolutionF_ok
    (recur : List Word → List Word → Bool → Option Solution)
    (g : Word) (guesses answers : List Word) (hard same : Bool) (s : Solution)
    (hg : wordWF g)
    (hgs : ∀ w ∈ guesses, wordWF w)
    (hans : ∀ w ∈ answers, wordWF w)
    (hnd : answers.Nodup)
    (hne : answers ≠ [])
    (hrec : ∀ pool dict sm sub, (∀ w ∈ pool, wordWF w) → (∀ w ∈ dict, wordWF w) →
      dict.Nodup → dict ≠ [] → recur pool dict sm = some sub → sub.okB = true)
    (hsing : ∀ pool dict sm, dict.length = 1 →
      recur pool dict sm = some (Solution.mk (dict.headD []) 1 []))
    (hf : slowSolutionF recur (mkGuess g answers) guesses hard same = some s) :
    s.okB = true := by
  have hf' : slowFoldF recur hard same guesses
      (if hard && !same then partitionD g guesses else [])
      (partitionD g answers) (Solution.mk g 0 []) = some s := hf
  have hpoolWF : ∀ (c : Nat) (dict : List Word), (∀ w ∈ dict, wordWF w) →
      ∀ w ∈ nextPool hard same guesses
        (if hard && !same then partitionD g guesses else []) c dict, wordWF w := by
    intro c dict hdict w hw
    cases hard with
    | false => exact hgs w hw
    | true =>
      cases same with
      | true => exact hdict w hw
      | false =>
        have hw' : w ∈ (pfind (partitionD g guesses) c).getD [] := hw
        rw [pfind_partitionD] at hw'
        by_cases hc : c ∈ wmCodes g guesses
        · rw [if_pos hc] at hw'
          have hwb : w ∈ wmBucket g guesses c := hw'
          exact hgs w (List.mem_of_mem_filter hwb)
        · rw [if_neg hc] at hw'
          exact absurd hw' (List.not_mem_nil w)
  have hrec' : ∀ e ∈ partitionD g answers, ∀ sub,
      recur (nextPool hard same guesses
        (if hard && !same then partitionD g guesses else []) e.1 e.2) e.2
        (hard && same) = some sub →
      sub.okB = true ∧ (e.1 = CORRECT → sub.leaves ≤ e.2.length) := by
    intro e he sub heq
    obtain ⟨c, hc, hce⟩ := List.mem_map.mp he
    have he2 : e.2 = wmBucket g answers c := by rw [← hce]
    have he1 : e.1 = c := by rw [← hce]
    have hdne : e.2 ≠ [] := by
      rw [he2]
      exact partition_bucket_ne_nil g answers c _
        (by rw [← he2, ← he1, Prod.mk.eta]; exact he)
    have hdictWF : ∀ w ∈ e.2, wordWF w := by
      intro w hw
      rw [he2] at hw
      exact hans w (List.mem_of_mem_filter hw)
    have hdnd : e.2.Nodup := by
      rw [he2, wmBucket]
      exact List.Nodup.filter _ hnd
    constructor
    · exact hrec _ e.2 (hard && same) sub (hpoolWF e.1 e.2 hdictWF) hdictWF hdnd hdne heq
    · intro hcor
      have hcC : c = CORRECT := by rw [← he1]; exact hcor
      have hlen1 : e.2.length = 1 := by
        rw [he2, hcC]
        exact correct_bucket_len g answers hg hans hnd
          (by rw [← hcC, ← he2]; exact hdne)
      have hleaf := hsing (nextPool hard same guesses
        (if hard && !same then partitionD g guesses else []) e.1 e.2) e.2
        (hard && same) hlen1
      rw [heq, Option.some.injEq] at hleaf
      rw [hleaf, leaves_leaf]
      omega
  have hfold := slowFoldF_ok recur hard same guesses
    (if hard && !same then partitionD g guesses else [])
    (partitionD g answers) (Solution.mk g 0 []) s hrec' rfl (by exact le_refl 0) hf'
  cases s with
  | mk gw sz l =>
    rw [okB_mk_iff]
    refine ⟨?_, hfold.1⟩
    have hlpos : l ≠ [] := by
      have hplen := List.length_pos.mpr (partitionD_ne_nil g answers hne)
      have : l.length = (partitionD g answers).length := by
        have h4 : l.length = 0 + (partitionD g answers).length := hfold.2.2
        omega
      rw [← List.length_pos, this]
      exact hplen
    show max 1 (leavesL l) ≤ sz
    have h1 := leavesL_pos l hlpos
    have h2 : leavesL l ≤ sz := hfold.2.1
    omega

theorem solveGo_ok : ∀ (depth : Nat) (guesses answers : List Word) (breadth : Nat)
    (hard same : Bool) (s : Solution),
    (∀ w ∈ guesses, wordWF w) → (∀ w ∈ answers, wordWF w) →
    answers.Nodup → answers ≠ [] →
    solveGo depth guesses answers breadth hard same = some s → s.okB = true := by
  intro depth
  induction depth using Nat.strong_induction_on with
  | _ depth ih =>
    rcases depth with _ | depth1
    · intro guesses answers breadth hard same s _ _ _ _ hs
      simp only [solveGo] at hs
      split at hs
      · rw [Option.some.injEq] at hs
        rw [← hs]
        exact leaf_okB _
      · exact absurd hs (by simp)
    rcases depth1 with _ | d
    · intro guesses answers breadth hard same s _ _ _ _ hs
      simp only [solveGo] at hs
      split at hs
      · rw [Option.some.injEq] at hs
        rw [← hs]
        exact leaf_okB _
      · exact absurd hs (by simp)
    · intro guesses answers breadth hard same s hgs hans hnd hne hs
      simp only [solveGo] at hs
      split at hs
      · rw [Option.some.injEq] at hs
        rw [← hs]
        exact leaf_okB _
      · split at hs
        · rename_i sol hscan
          rw [Option.some.injEq] at hs
          rw [← hs]
          obtain ⟨g, hgmem, hfast⟩ := scanG_inl answers breadth (d + 2) guesses [] sol hscan
          exact fastSolution_ok _ _ _ hfast
        · rename_i heap hscan
          obtain ⟨gi, hgi, hslow⟩ := expandF_mem _ hard same guesses heap s
            (minBySize_spec _ s hs).1
          obtain ⟨g, hg0, hgieq⟩ := scanG_inr_mem answers breadth (d + 2) guesses guesses []
            (fun x hx => hx) (fun gi2 h => absurd h (List.not_mem_nil _)) heap hscan gi hgi
          rw [hgieq] at hslow
          refine slowSolutionF_ok _ g guesses answers hard same s
            (hgs g hg0) hgs hans hnd hne ?_ ?_ hslow
          · intro pool dict sm sub hpool hdict hdnd hdne hr
            exact ih (d + 1) (by omega) pool dict breadth hard sm sub hpool hdict hdnd hdne hr
          · intro pool dict sm hlen
            exact solveGo_singleton (d + 1) pool dict breadth hard sm hlen

/-- C8 (corrected): the claimed invariant fails on the empty answer set —
`solve` then returns a single childless node of size 0, which counts as
one leaf (`C8_counterexample`).  For a non-empty, duplicate-free answer
set of well-formed 5-letter words drawn against a well-formed guess
pool, every tree returned by `solve` — and every tree built through
`Guess::slow_solution` or `Guess::fast_solution` on a candidate built by
`Guess::new` — satisfies `size ≥ number of leaves` at every node
(`Solution.okB` checks the inequality recursively at each node). -/
theorem C8_amended (guesses answers : List Word)
    (hgs : ∀ w ∈ guesses, wordWF w) (hans : ∀ w ∈ answers, wordWF w)
    (hnd : answers.Nodup) (hne : answers ≠ []) :
    (∀ (breadth depth : Nat) (hard same : Bool) (s : Solution),
      solve guesses answers breadth depth hard same = some s → s.okB = true) ∧
    (∀ (g : Word) (breadth depth : Nat) (hard same : Bool) (s : Solution), wordWF g →
      slowSolution (mkGuess g answers) guesses breadth depth hard same = some s →
      s.okB = true) ∧
    (∀ (g : Word) (depth : Nat) (s : Solution),
      fastSolution (mkGuess g answers) depth = some s → s.okB = true) := by
  refine ⟨?_, ?_, ?_⟩
  · intro breadth depth hard same s h
    exact solveGo_ok depth guesses answers breadth hard same s hgs hans hnd hne h
  · intro g breadth depth hard same s hg h
    refine slowSolutionF_ok (fun gs as sm => solveGo depth gs as breadth hard sm)
      g guesses answers hard same s hg hgs hans hnd hne ?_ ?_ h
    · intro pool dict sm sub hpool hdict hdnd hdne hr
      exact solveGo_ok depth pool dict breadth hard sm sub hpool hdict hdnd hdne hr
    · intro pool dict sm hlen
      exact solveGo_singleton depth pool dict breadth hard sm hlen
  · intro g depth s h
    exact fastSolution_ok _ _ _ h

/-- C8 counterexample to the unconditional claim: over the empty answer
set, `solve` (through `slow_solution`'s fold over an empty partition)
returns a childless node of size 0 — one leaf, size zero. -/
theorem C8_counterexample :
    solve [[97, 97, 97, 97, 97]] [] 1 2 false false =
      some (Solution.mk [97, 97, 97, 97, 97] 0 []) ∧
    Solution.leaves (Solution.mk [97, 97, 97, 97, 97] 0 []) = 1 ∧
    Solution.size (Solution.mk [97, 97, 97, 97, 97] 0 []) = 0 :=
  ⟨rfl, rfl, rfl⟩

/-- Witness for `C8_amended`: the tree `solve` returns on the pool
`{aaaaa, bbbbb}` (breadth 1, depth 2, easy) checks out at every node. -/
theorem C8_amended_witness :
    Solution.okB (Solution.mk [97, 97, 97, 97, 97] 3
      [(242, Solution.mk [97, 97, 97, 97, 97] 1 []),
       (0, Solution.mk [98, 98, 98, 98, 98] 1 [])]) = true :=
  (C8_amended [[97, 97, 97, 97, 97], [98, 98, 98, 98, 98]]
    [[97, 97, 97, 97, 97], [98, 98, 98, 98, 98]]
    (by decide) (by decide) (by decide) (by decide)).1 1 2 false false _ rfl

/-! ### Claim C9: termination through the depth budget

Each solver is re-run under an explicit call-nesting budget `gas`,
consumed by one unit at every nested recursive call and otherwise
mirroring the code exactly; `none` means the budget ran out before the
function returned.  Showing that any `gas > depth` makes the
instrumented run return (with the original result) proves that the
recursion nests at most `depth` calls deep: the depth budget strictly
decreases at every recursive call and the recursion stops at the
documented base cases. -/

def traverseOpt {α : Type} : List (Option α) → Option (List α)
  | [] => some []
  | none :: _ => none
  | some x :: rest => (traverseOpt rest).map (fun l => x :: l)

def parProcessG (d : List Word) (weight : Nat) (f : Word → Option (Option Nat)) :
    Option (Option Nat) :=
  (traverseOpt (d.map f)).map
    (fun rs => ((rs.filterMap id).min?).map (fun sub => weight + sub))

def tryFoldOptG (f : Nat → List Word → Option (Option Nat)) :
    List (List Word) → Nat → Option (Option Nat)
  | [], acc => some (some acc)
  | d :: rest, acc =>
    match f acc d with
    | none => none
    | some none => some none
    | some (some acc') => tryFoldOptG f rest acc'

def tryFoldOptPG (f : Nat → (Nat × List Word) → Option (Option Nat)) :
    List (Nat × List Word) → Nat → Option (Option Nat)
  | [], acc => some (some acc)
  | e :: rest, acc =>
    match f acc e with
    | none => none
    | some none => some none
    | some (some acc') => tryFoldOptPG f rest acc'

def slowFoldFG (recur : List Word → List Word → Bool → Option (Option Solution))
    (hard same : Bool) (guesses : List Word) (partitions : List (Nat × List Word)) :
    List (Nat × List Word) → Solution → Option (Option Solution)
  | [], acc => some (some acc)
  | (wm, dict) :: rest, acc =>
    match recur (nextPool hard same guesses partitions wm dict) dict (hard && same) with
    | none => none
    | some none => some none
    | some (some sub) =>
      slowFoldFG recur hard same guesses partitions rest
        (Solution.mk acc.guess
          (acc.size + dict.length + (if wm ≠ CORRECT then sub.size else 0))
          (acc.solution ++ [(wm, sub)]))

def slowSolutionFG (recur : List Word → List Word → Bool → Option (Option Solution))
    (gi : GuessInfo) (guesses : List Word) (hard same : Bool) : Option (Option Solution) :=
  let partitions := if hard && !same then partitionD gi.word guesses else []
  slowFoldFG recur hard same guesses partitions gi.partition (Solution.mk gi.word 0 [])

def expandFG (recur : List Word → List Word → Bool → Option (Option Solution))
    (hard same : Bool) (guesses : List Word) : List GuessInfo → Option (List Solution)
  | [] => some []
  | gi :: rest =>
    match slowSolutionFG recur gi guesses hard same with
    | none => none
    | some none => expandFG recur hard same guesses rest
    | some (some s) => (expandFG recur hard same guesses rest).map (fun l => s :: l)

def gasSolveGo : Nat → List Word → List Word → Nat → Nat → Bool → Bool →
    Option (Option Solution)
  | 0, _, _, _, _, _, _ => none
  | gas + 1, guesses, answers, breadth, depth, hard, same =>
    match depth with
    | 0 => some (if answers.length = 1
        then some (Solution.mk (answers.headD []) 1 []) else none)
    | 1 => some (if answers.length = 1
        then some (Solution.mk (answers.headD []) 1 []) else none)
    | d + 2 =>
      if answers.length = 1 then some (some (Solution.mk (answers.headD []) 1 []))
      else
        match scanG answers breadth (d + 2) guesses [] with
        | Sum.inl s => some (some s)
        | Sum.inr heap =>
          (expandFG (fun gs as sm => gasSolveGo gas gs as breadth (d + 1) hard sm)
            hard same guesses heap).map minBySize

def gasSolveEasy : Nat → Word → List Word → List Word → Nat → Option (Option Nat)
  | 0, _, _, _, _ => none
  | gas + 1, g, guesses, answers, depth =>
    if answers.length = 1 then some (some 1)
    else match depth with
      | 0 => some none
      | d + 1 =>
        let part := partitionD g answers
        if part.length = 1 then some none
        else
          let init := if (pfind part CORRECT).isSome then 1 else 0
          let rest := part.filter (fun e => decide (e.1 ≠ CORRECT))
          if rest.length = answers.length then some (some (2 * rest.length - init))
          else
            tryFoldOptG
              (fun total dict => parProcessG guesses (total + dict.length)
                (fun g2 => gasSolveEasy gas g2 guesses dict d))
              (rest.map (fun e => e.2)) init

def gasSolveHard : Nat → Word → List Word → List Word → Nat → Option (Option Nat)
  | 0, _, _, _, _ => none
  | gas + 1, g, guesses, answers, depth =>
    if answers.length = 1 then some (some 1)
    else match depth with
      | 0 => some none
      | d + 1 =>
        let part := partitionD g answers
        if part.length = 1 then some none
        else
          let init := if (pfind part CORRECT).isSome then 1 else 0
          let rest := part.filter (fun e => decide (e.1 ≠ CORRECT))
          if rest.length = answers.length then some (some (2 * rest.length - init))
          else
            let gpart := partitionD g guesses
            tryFoldOptPG
              (fun total e =>
                match pfind gpart e.1 with
                | none => some none
                | some gs2 => parProcessG gs2 (total + e.2.length)
                    (fun g2 => gasSolveEasy gas g2 gs2 e.2 d))
              rest init

def gasSolveHardLimited : Nat → Word → List Word → Nat → Option (Option Nat)
  | 0, _, _, _ => none
  | gas + 1, g, dict, depth =>
    if dict.length = 1 then some (some 1)
    else match depth with
      | 0 => some none
      | d + 1 =>
        let part := partitionD g dict
        if part.length = dict.length then some (some (2 * part.length - 1))
        else
          let rest := part.filter (fun e => decide (e.1 ≠ CORRECT))
          tryFoldOptG
            (fun total dict2 => parProcessG dict2 (total + dict2.length)
              (fun g2 => gasSolveHardLimited gas g2 dict2 d))
            (rest.map (fun e => e.2)) 1

theorem filterMap_id_map (d : List Word) (f0 : Word → Option Nat) :
    (d.map f0).filterMap id = d.filterMap f0 := by
  induction d with
  | nil => rfl
  | cons w rest ih =>
    simp only [List.map_cons, List.filterMap_cons]
    cases f0 w <;> simp [ih]

theorem traverseOpt_map_eq {α : Type} (f : Word → Option α) (f0 : Word → α) :
    ∀ (d : List Word), (∀ w ∈ d, f w = some (f0 w)) →
    traverseOpt (d.map f) = some (d.map f0) := by
  intro d
  induction d with
  | nil => intro _; rfl
  | cons w rest ih =>
    intro h
    show traverseOpt (f w :: rest.map f) = _
    rw [h w (by simp)]
    show (traverseOpt (rest.map f)).map _ = _
    rw [ih (fun x hx => h x (by simp [hx]))]
    rfl

theorem parProcessG_sim (d : List Word) (weight : Nat)
    (f : Word → Option (Option Nat)) (f0 : Word → Option Nat)
    (h : ∀ w ∈ d, f w = some (f0 w)) :
    parProcessG d weight f = some (parProcess d weight f0) := by
  rw [parProcessG, traverseOpt_map_eq f f0 d h]
  show some (((d.map f0).filterMap id).min?.map (fun sub => weight + sub)) = _
  rw [filterMap_id_map]
  rfl

theorem tryFoldOptG_sim (f : Nat → List Word → Option (Option Nat))
    (f0 : Nat → List Word → Option Nat)
    (h : ∀ acc dict, f acc dict = some (f0 acc dict)) :
    ∀ (l : List (List Word)) (acc : Nat),
      tryFoldOptG f l acc = some (tryFoldOpt f0 l acc) := by
  intro l
  induction l with
  | nil => intro acc; rfl
  | cons d rest ih =>
    intro acc
    show (match f acc d with
      | none => none
      | some none => some none
      | some (some acc') => tryFoldOptG f rest acc') =
      some (match f0 acc d with
      | none => none
      | some acc' => tryFoldOpt f0 rest acc')
    rw [h acc d]
    cases f0 acc d with
    | none => rfl
    | some acc' => exact ih acc'

theorem tryFoldOptPG_sim (f : Nat → (Nat × List Word) → Option (Option Nat))
    (f0 : Nat → (Nat × List Word) → Option Nat)
    (h : ∀ acc e, f acc e = some (f0 acc e)) :
    ∀ (l : List (Nat × List Word)) (acc : Nat),
      tryFoldOptPG f l acc = some (tryFoldOptP f0 l acc) := by
  intro l
  induction l with
  | nil => intro acc; rfl
  | cons e rest ih =>
    intro acc
    show (match f acc e with
      | none => none
      | some none => some none
      | some (some acc') => tryFoldOptPG f rest acc') =
      some (match f0 acc e with
      | none => none
      | some acc' => tryFoldOptP f0 rest acc')
    rw [h acc e]
    cases f0 acc e with
    | none => rfl
    | some acc' => exact ih acc'

theorem slowFoldFG_sim (recurG : List Word → List Word → Bool → Option (Option Solution))
    (recur : List Word → List Word → Bool → Option Solution)
    (hard same : Bool) (guesses : List Word) (partitions : List (Nat × List Word))
    (h : ∀ pool dict sm, recurG pool dict sm = some (recur pool dict sm)) :
    ∀ (l : List (Nat × List Word)) (acc : Solution),
      slowFoldFG recurG hard same guesses partitions l acc =
        some (slowFoldF recur hard same guesses partitions l acc) := by
  intro l
  induction l with
  | nil => intro acc; rfl
  | cons e rest ih =>
    intro acc
    obtain ⟨wm, dict⟩ := e
    show (match recurG (nextPool hard same guesses partitions wm dict) dict (hard && same) with
      | none => none
      | some none => some none
      | some (some sub) => slowFoldFG recurG hard same guesses partitions rest _) =
      some (match recur (nextPool hard same guesses partitions wm dict) dict (hard && same) with
      | none => none
      | some sub => slowFoldF recur hard same guesses partitions rest _)
    rw [h (nextPool hard same guesses partitions wm dict) dict (hard && same)]
    cases recur (nextPool hard same guesses partitions wm dict) dict (hard && same) with
    | none => rfl
    | some sub => exact ih _

theorem expandFG_sim (recurG : List Word → List Word → Bool → Option (Option Solution))
    (recur : List Word → List Word → Bool → Option Solution)
    (hard same : Bool) (guesses : List Word)
    (h : ∀ pool dict sm, recurG pool dict sm = some (recur pool dict sm)) :
    ∀ (heap : List GuessInfo),
      expandFG recurG hard same guesses heap =
        some (expandF recur hard same guesses heap) := by
  intro heap
  induction heap with
  | nil => rfl
  | cons gi rest ih =>
    have hss : slowSolutionFG recurG gi guesses hard same =
        some (slowSolutionF recur gi guesses hard same) :=
      slowFoldFG_sim recurG recur hard same guesses _ h gi.partition _
    show (match slowSolutionFG recurG gi guesses hard same with
      | none => none
      | some none => expandFG recurG hard same guesses rest
      | some (some s) => (expandFG recurG hard same guesses rest).map (fun l => s :: l)) =
      some (match slowSolutionF recur gi guesses hard same with
      | none => expandF recur hard same guesses rest
      | some s => s :: expandF recur hard same guesses rest)
    rw [hss]
    cases slowSolutionF recur gi guesses hard same with
    | none => exact ih
    | some s => rw [ih]; rfl

theorem gasSolveGo_sim : ∀ (gas depth : Nat), depth < gas →
    ∀ (guesses answers : List Word) (breadth : Nat) (hard same : Bool),
      gasSolveGo gas guesses answers breadth depth hard same =
        some (solveGo depth guesses answers breadth hard same) := by
  intro gas
  induction gas with
  | zero => intro depth h; omega
  | succ gas ih =>
    intro depth h guesses answers breadth hard same
    match depth with
    | 0 => rfl
    | 1 => rfl
    | d + 2 =>
      show (if answers.length = 1 then some (some (Solution.mk (answers.headD []) 1 []))
        else match scanG answers breadth (d + 2) guesses [] with
        | Sum.inl s => some (some s)
        | Sum.inr heap =>
          (expandFG (fun gs as sm => gasSolveGo gas gs as breadth (d + 1) hard sm)
            hard same guesses heap).map minBySize) = _
      by_cases h1 : answers.length = 1
      · rw [if_pos h1]
        show _ = some (if answers.length = 1
            then some (Solution.mk (answers.headD []) 1 []) else _)
        rw [if_pos h1]
      · rw [if_neg h1]
        show _ = some (if answers.length = 1
            then some (Solution.mk (answers.headD []) 1 [])
          else match scanG answers breadth (d + 2) guesses [] with
            | Sum.inl s => some s
            | Sum.inr heap =>
              minBySize (expandF
                (fun gs as sm => solveGo (d + 1) gs as breadth hard sm)
                hard same guesses heap))
        rw [if_neg h1]
        cases scanG answers breadth (d + 2) guesses [] with
        | inl s => rfl
        | inr heap =>
          show (expandFG _ hard same guesses heap).map minBySize = _
          rw [expandFG_sim _ (fun gs as sm => solveGo (d + 1) gs as breadth hard sm)
            hard same guesses (fun pool dict sm => ih (d + 1) (by omega) pool dict breadth hard sm)
            heap]
          rfl

theorem gasSolveEasy_sim : ∀ (gas depth : Nat), depth < gas →
    ∀ (g : Word) (guesses answers : List Word),
      gasSolveEasy gas g guesses answers depth =
        some (solveEasy g guesses answers depth) := by
  intro gas
  induction gas with
  | zero => intro depth h; omega
  | succ gas ih =>
    intro depth h g guesses answers
    rcases depth with _ | d
    · simp only [gasSolveEasy, solveEasy]
      by_cases h1 : answers.length = 1
      · rw [if_pos h1, if_pos h1]
      · rw [if_neg h1, if_neg h1]
    · simp only [gasSolveEasy, solveEasy]
      by_cases h1 : answers.length = 1
      · rw [if_pos h1, if_pos h1]
      · rw [if_neg h1, if_neg h1]
        by_cases h2 : (partitionD g answers).length = 1
        · rw [if_pos h2, if_pos h2]
        · rw [if_neg h2, if_neg h2]
          by_cases h3 : ((partitionD g answers).filter
              (fun e => decide (e.1 ≠ CORRECT))).length = answers.length
          · rw [if_pos h3, if_pos h3]
          · rw [if_neg h3, if_neg h3]
            exact tryFoldOptG_sim _ _
              (fun acc dict => parProcessG_sim guesses (acc + dict.length) _ _
                (fun g2 _ => ih d (by omega) g2 guesses dict)) _ _

theorem gasSolveHard_sim : ∀ (gas depth : Nat), depth < gas →
    ∀ (g : Word) (guesses answers : List Word),
      gasSolveHard gas g guesses answers depth =
        some (solveHard g guesses answers depth) := by
  intro gas
  induction gas with
  | zero => intro depth h; omega
  | succ gas ih =>
    intro depth h g guesses answers
    rcases depth with _ | d
    · simp only [gasSolveHard, solveHard]
      by_cases h1 : answers.length = 1
      · rw [if_pos h1, if_pos h1]
      · rw [if_neg h1, if_neg h1]
    · simp only [gasSolveHard, solveHard]
      by_cases h1 : answers.length = 1
      · rw [if_pos h1, if_pos h1]
      · rw [if_neg h1, if_neg h1]
        by_cases h2 : (partitionD g answers).length = 1
        · rw [if_pos h2, if_pos h2]
        · rw [if_neg h2, if_neg h2]
          by_cases h3 : ((partitionD g answers).filter
              (fun e => decide (e.1 ≠ CORRECT))).length = answers.length
          · rw [if_pos h3, if_pos h3]
          · rw [if_neg h3, if_neg h3]
            refine tryFoldOptPG_sim _ _ ?_ _ _
            intro acc e
            show (match pfind (partitionD g guesses) e.1 with
              | none => some none
              | some gs2 => parProcessG gs2 (acc + e.2.length)
                  (fun g2 => gasSolveEasy gas g2 gs2 e.2 d)) =
              some (match pfind (partitionD g guesses) e.1 with
              | none => none
              | some gs2 => parProcess gs2 (acc + e.2.length)
                  (fun g2 => solveEasy g2 gs2 e.2 d))
            cases pfind (partitionD g guesses) e.1 with
            | none => rfl
            | some gs2 =>
              exact parProcessG_sim gs2 (acc + e.2.length) _ _
                (fun g2 _ => gasSolveEasy_sim gas d (by omega) g2 gs2 e.2)

theorem gasSolveHardLimited_sim : ∀ (gas depth : Nat), depth < gas →
    ∀ (g : Word) (dict : List Word),
      gasSolveHardLimited gas g dict depth = some (solveHardLimited g dict depth) := by
  intro gas
  induction gas with
  | zero => intro depth h; omega
  | succ gas ih =>
    intro depth h g dict
    rcases depth with _ | d
    · simp only [gasSolveHardLimited, solveHardLimited]
      by_cases h1 : dict.length = 1
      · rw [if_pos h1, if_pos h1]
      · rw [if_neg h1, if_neg h1]
    · simp only [gasSolveHardLimited, solveHardLimited]
      by_cases h1 : dict.length = 1
      · rw [if_pos h1, if_pos h1]
      · rw [if_neg h1, if_neg h1]
        by_cases h2 : (partitionD g dict).length = dict.length
        · rw [if_pos h2, if_pos h2]
        · rw [if_neg h2, if_neg h2]
          exact tryFoldOptG_sim _ _
            (fun acc dict2 => parProcessG_sim dict2 (acc + dict2.length) _ _
              (fun g2 _ => ih d (by omega) g2 dict2)) _ _

/-- C9 (confirmed): every recursive call strictly decreases the depth
budget, so each solver's recursion nests at most `depth` calls deep:
re-running any of the four solvers under an explicit call-nesting
budget `gas` (decremented at every nested call, with `none` signalling
exhaustion) returns the original result whenever `gas > depth`.  In
particular `solve` terminates for every input with `depth ≥ 1`
(recursion through `slow_solution` passes `depth - 1` and stops at
`depth = 1` or a singleton answer set), and `solve_easy`, `solve_hard`
and `solve_hard_limited` terminate for every input (recursing at
`depth - 1`, stopping at `depth = 0` or a singleton set). -/
theorem C9_termination (guesses answers dict : List Word) (g : Word) (breadth : Nat)
    (hard same : Bool) (gas depth : Nat) (h : depth < gas) :
    gasSolveGo gas guesses answers breadth depth hard same =
      some (solve guesses answers breadth depth hard same) ∧
    gasSolveEasy gas g guesses answers depth = some (solveEasy g guesses answers depth) ∧
    gasSolveHard gas g guesses answers depth = some (solveHard g guesses answers depth) ∧
    gasSolveHardLimited gas g dict depth = some (solveHardLimited g dict depth) :=
  ⟨gasSolveGo_sim gas depth h guesses answers breadth hard same,
   gasSolveEasy_sim gas depth h g guesses answers,
   gasSolveHard_sim gas depth h g guesses answers,
   gasSolveHardLimited_sim gas depth h g dict⟩

/-- Witness for `C9_termination` on the two-word pool at depth 2 with
budget 3. -/
theorem C9_termination_witness :
    gasSolveGo 3 [[97, 97, 97, 97, 97], [98, 98, 98, 98, 98]]
        [[97, 97, 97, 97, 97], [98, 98, 98, 98, 98]] 1 2 false false =
      some (solve [[97, 97, 97, 97, 97], [98, 98, 98, 98, 98]]
        [[97, 97, 97, 97, 97], [98, 98, 98, 98, 98]] 1 2 false false) ∧
    gasSolveEasy 3 [97, 97, 97, 97, 97] [[97, 97, 97, 97, 97], [98, 98, 98, 98, 98]]
        [[97, 97, 97, 97, 97], [98, 98, 98, 98, 98]] 2 =
      some (solveEasy [97, 97, 97, 97, 97] [[97, 97, 97, 97, 97], [98, 98, 98, 98, 98]]
        [[97, 97, 97, 97, 97], [98, 98, 98, 98, 98]] 2) ∧
    gasSolveHard 3 [97, 97, 97, 97, 97] [[97, 97, 97, 97, 97], [98, 98, 98, 98, 98]]
        [[97, 97, 97, 97, 97], [98, 98, 98, 98, 98]] 2 =
      some (solveHard [97, 97, 97, 97, 97] [[97, 97, 97, 97, 97], [98, 98, 98, 98, 98]]
        [[97, 97, 97, 97, 97], [98, 98, 98, 98, 98]] 2) ∧
    gasSolveHardLimited 3 [97, 97, 97, 97, 97]
        [[97, 97, 97, 97, 97], [98, 98, 98, 98, 98]] 2 =
      some (solveHardLimited [97, 97, 97, 97, 97]
        [[97, 97, 97, 97, 97], [98, 98, 98, 98, 98]] 2) :=
  C9_termination [[97, 97, 97, 97, 97], [98, 98, 98, 98, 98]]
    [[97, 97, 97, 97, 97], [98, 98, 98, 98, 98]]
    [[97, 97, 97, 97, 97], [98, 98, 98, 98, 98]]
    [97, 97, 97, 97, 97] 1 false false 3 2 (by decide)
